import Mathlib

/-!
# animeflv-downloader-go: report writer, metalink converter, filename sanitizer

A shallow embedding of `src/main.go` and `src/metalink.go`.

Go strings are byte sequences, so a string is a list of bytes (`Str`).  The
standard-library calls the program makes (`strings.TrimSpace`, `strings.Split`,
`strings.Contains`, `strings.HasPrefix`, `strings.ReplaceAll`, the two regular
expressions, `strconv.Atoi`, `fmt.Sprintf`) are given by their byte-level
meaning.  Everything that touches the network, the clock or the file system is
a parameter of the function that uses it.
-/

namespace AnimeFLV

/-! ## Strings -/

/-- A Go string: its bytes. -/
abbrev Str := List Nat

/-- The bytes of an ASCII literal. -/
def bytes (s : String) : Str := s.toList.map Char.toNat

/-- The UTF-8 encodings of the runes for which `unicode.IsSpace` holds:
`\t \n \v \f \r`, space, U+0085, U+00A0, U+1680, U+2000..U+200A, U+2028,
U+2029, U+202F, U+205F, U+3000.  Go decodes one of these runes at a position
exactly when its encoding stands there: bytes that are no valid encoding decode
to U+FFFD, one byte at a time, and U+FFFD is no white space. -/
def spaceRunes : List Str :=
  [[0x09], [0x0A], [0x0B], [0x0C], [0x0D], [0x20],
   [0xC2, 0x85], [0xC2, 0xA0],
   [0xE1, 0x9A, 0x80],
   [0xE2, 0x80, 0x80], [0xE2, 0x80, 0x81], [0xE2, 0x80, 0x82], [0xE2, 0x80, 0x83],
   [0xE2, 0x80, 0x84], [0xE2, 0x80, 0x85], [0xE2, 0x80, 0x86], [0xE2, 0x80, 0x87],
   [0xE2, 0x80, 0x88], [0xE2, 0x80, 0x89], [0xE2, 0x80, 0x8A],
   [0xE2, 0x80, 0xA8], [0xE2, 0x80, 0xA9], [0xE2, 0x80, 0xAF],
   [0xE2, 0x81, 0x9F],
   [0xE3, 0x80, 0x80]]

/-- Remove, as long as there is one, an occurrence of one of `pats` at the
head of the string.  The first argument bounds the number of removals; the
length of the string is always enough. -/
def stripFuel (pats : List Str) : Nat → Str → Str
  | 0, s => s
  | n + 1, s =>
    match pats.find? (fun p => p.isPrefixOf s) with
    | some p => stripFuel pats n (s.drop p.length)
    | none => s

/-- The function `strings.TrimLeftFunc(s, unicode.IsSpace)`: drop the white-space runes
at the head. -/
def TrimLeftSpace (s : Str) : Str := stripFuel spaceRunes s.length s

/-- The function `strings.TrimRightFunc(s, unicode.IsSpace)`: drop the white-space runes
at the end, that is, the same removal on the reversed bytes with the reversed
encodings. -/
def TrimRightSpace (s : Str) : Str :=
  (stripFuel (spaceRunes.map List.reverse) s.length s.reverse).reverse

/-- The function `strings.TrimSpace`: leading and trailing Unicode white space removed
(its ASCII fast path and its fall-back `TrimFunc` agree with this). -/
def TrimSpace (s : Str) : Str := TrimRightSpace (TrimLeftSpace s)

/-- The function `strings.HasPrefix`. -/
def HasPrefix (s pre : Str) : Bool := pre.isPrefixOf s

/-- The function `strings.TrimPrefix`: `s` without the leading `pre`, or `s` itself. -/
def TrimPrefix (s pre : Str) : Str := if HasPrefix s pre then s.drop pre.length else s

/-- The function `strings.CutPrefix`: the rest after `pre`, when `s` starts with it. -/
def CutPrefix (s pre : Str) : Option Str :=
  if HasPrefix s pre then some (s.drop pre.length) else none

/-- The function `strings.TrimSuffix`. -/
def TrimSuffix (s suf : Str) : Str :=
  if suf.isSuffixOf s then s.take (s.length - suf.length) else s

/-- The function `strings.Contains`. -/
def Contains : Str → Str → Bool
  | [], sub => sub.isPrefixOf []
  | b :: rest, sub => sub.isPrefixOf (b :: rest) || Contains rest sub

/-- The function `strings.ReplaceAll` for one-byte `old` and `new`. -/
def ReplaceAllByte (s : Str) (old new : Nat) : Str :=
  s.map (fun b => if b = old then new else b)

/-- The function `strings.Split(text, "\n")`: the pieces between line feeds; the empty
string gives one empty piece. -/
def SplitLines : Str → List Str
  | [] => [[]]
  | b :: rest =>
    if b = 10 then [] :: SplitLines rest
    else match SplitLines rest with
      | [] => [[b]]
      | l :: ls => (b :: l) :: ls

/-- ASCII digit. -/
def isDigit (b : Nat) : Bool := 48 ≤ b && b ≤ 57

/-- Decimal rendering of a natural number (`%d`). -/
def decimal (n : Nat) : Str := (Nat.toDigits 10 n).map Char.toNat

/-- Rendering with `%02d`: zero-padded to two digits. -/
def decimal02 (n : Nat) : Str := if n < 10 then 48 :: decimal n else decimal n

/-- Value of a string of ASCII digits. -/
def digitsVal (ds : Str) : Nat := ds.foldl (fun acc d => acc * 10 + (d - 48)) 0

/-- Largest `int` (64-bit platforms). -/
def intMax : Nat := 2 ^ 63 - 1

/-- The function `strconv.Atoi` on a non-empty string of ASCII digits (the only
arguments it receives here): the value, or an error when it does not fit an
`int`. -/
def Atoi (ds : Str) : Option Nat :=
  if digitsVal ds ≤ intMax then some (digitsVal ds) else none

/-! ## Go maps -/

/-- The assignment `m[k] = v` on a map kept as a list of bindings with distinct keys. -/
def mapSet {κ ν : Type} [BEq κ] (m : List (κ × ν)) (k : κ) (v : ν) : List (κ × ν) :=
  (k, v) :: m.filter (fun p => !(p.1 == k))

/-- The lookup `v, exists := m[k]`. -/
def mapGet {κ ν : Type} [BEq κ] (m : List (κ × ν)) (k : κ) : Option ν :=
  m.lookup k

/-! ## main.go -/

/-- Episode of an anime. -/
structure Episode where
  Name : Str
  Link : Str
deriving DecidableEq, Repr

/-- Download link. -/
structure Download where
  ProviderName : Str
  DownloadURL : Str
deriving DecidableEq, Repr

/-- The bytes matched by the character class of the regular expression in
`sanitizeFilename`: less-than, greater-than, colon, double quote, slash,
backslash, vertical bar, question mark, asterisk. -/
def invalidChars : List Nat := [60, 62, 58, 34, 47, 92, 124, 63, 42]

/-- The call `reg.ReplaceAllString(filename, "_")` for the class of `invalidChars`. -/
def replaceInvalid (s : Str) : Str :=
  s.map (fun b => if b ∈ invalidChars then 95 else b)

/-- Function `sanitizeFilename`. -/
def sanitizeFilename (filename : Str) : Str :=
  let cleaned := replaceInvalid filename
  let cleaned := TrimSpace cleaned
  let cleaned := ReplaceAllByte cleaned 32 95
  if cleaned.length > 100 then cleaned.take 100 else cleaned

/-- The header `writeDownloadsToFile` prints; `now` is the formatted clock reading. -/
def writeHeader (animeName now : Str) : Str :=
  bytes "ENLACES DE DESCARGA - " ++ animeName ++ bytes "\n"
    ++ (bytes "Generado el: " ++ now ++ bytes "\n")
    ++ bytes "========================================\n\n"

/-- One turn of the inner loop of `writeDownloadsToFile`. -/
def writeDownload (file : Str) (download : Download) : Str :=
  file ++ (bytes "Proveedor: " ++ download.ProviderName ++ bytes "\n")
    ++ (bytes "Enlace: " ++ download.DownloadURL ++ bytes "\n\n")

/-- One turn of the outer loop of `writeDownloadsToFile`: `file` is what has been
printed so far. -/
def writeEpisode (allDownloads : List (Str × List Download)) (file : Str)
    (episode : Episode) : Str :=
  match mapGet allDownloads episode.Link with
  | none => file
  | some downloads =>
    if downloads.length = 0 then file
    else
      let file := file ++ (bytes "EPISODIO: " ++ episode.Name ++ bytes "\n")
      let file := file ++ bytes "----------------------------------------\n"
      let file := downloads.foldl writeDownload file
      file ++ bytes "\n"

/-- The text `writeDownloadsToFile` prints into the report file. -/
def reportText (animeName now : Str) (episodes : List Episode)
    (allDownloads : List (Str × List Download)) : Str :=
  episodes.foldl (writeEpisode allDownloads) (writeHeader animeName now)

/-- A result together with the number of plain HTTP fetches made to get it. -/
structure Traced (α : Type) where
  result : Except Str α
  plainFetches : Nat

/-- A `tbody tr` row as the extraction loop sees it: the number of its `td`
cells, the text of cell 0 and the `href` of the anchor of cell 3. -/
structure DownloadRow where
  tds : Nat
  providerText : Str
  href : Option Str
deriving DecidableEq, Repr

/-- The loop over the rows of the download table. -/
def extractDownloads (rows : List DownloadRow) : List Download :=
  rows.foldl (fun downloadList s =>
    if s.tds ≥ 4 then
      match s.href with
      | some href =>
        if TrimSpace s.providerText ≠ [] then
          downloadList ++ [⟨TrimSpace s.providerText, href⟩]
        else downloadList
      | none => downloadList
    else downloadList) []

/-- Function `getDownloadLinksEpisode`: `render` is what `chromedp.Run` gave (the HTML
or an error), `parseRows` the goquery parse and selection, `plain` what
`getDownloadLinksWithHTTP` returns when it is called. -/
def getDownloadLinksEpisode (render : Except Str Str)
    (parseRows : Str → Except Str (List DownloadRow))
    (plain : Except Str (List Download)) : Traced (List Download) :=
  match render with
  | .error _ => ⟨plain, 1⟩
  | .ok htmlContent =>
    match parseRows htmlContent with
    | .error err => ⟨.error (bytes "error parseando HTML: " ++ err), 0⟩
    | .ok rows => ⟨.ok (extractDownloads rows), 0⟩

/-- An `ul.ListCaps li` item as the extraction loop sees it: the text of its `p`
and the `href` of its anchor. -/
structure EpisodeItem where
  nameText : Str
  href : Option Str
deriving DecidableEq, Repr

/-- The loop over the items of the episode list. -/
def extractEpisodes (items : List EpisodeItem) : List Episode :=
  items.foldl (fun episodesList s =>
    match s.href with
    | some href =>
      if s.nameText ≠ [] then episodesList ++ [⟨TrimSpace s.nameText, href⟩]
      else episodesList
    | none => episodesList) []

/-- Function `getLinksEpisodes`: `render` is what `chromedp.Run` gave, `parseItems` the
goquery parse and selection, `plain` what `getEpisodesWithHTTP` returns when it
is called. -/
def getLinksEpisodes (render : Except Str Str)
    (parseItems : Str → Except Str (List EpisodeItem))
    (plain : Except Str (List Episode)) : Traced (List Episode) :=
  match render with
  | .error _ => ⟨plain, 1⟩
  | .ok htmlContent =>
    match parseItems htmlContent with
    | .error err => ⟨.error (bytes "error parseando HTML: " ++ err), 0⟩
    | .ok items =>
      let episodesList := extractEpisodes items
      if episodesList.length = 0 then ⟨plain, 1⟩
      else ⟨.ok episodesList, 0⟩

/-! ## metalink.go -/

/-- One file of the metalink. -/
structure MetalinkFile where
  Name : Str
  Description : Str
  URL : Str
  Size : Nat
  Extension : Str
deriving DecidableEq, Repr

/-- The generator. -/
structure MetalinkGenerator where
  Title : Str
  Description : Str
  Category : Str
  Files : List MetalinkFile
deriving DecidableEq, Repr

/-- Function `NewMetalinkGenerator`. -/
def NewMetalinkGenerator (title description category : Str) : MetalinkGenerator :=
  { Title := title, Description := description, Category := category, Files := [] }

/-- Method `AddFile`. -/
def MetalinkGenerator.AddFile (mg : MetalinkGenerator) (name description url : Str)
    (size : Nat) (extension : Str) : MetalinkGenerator :=
  { mg with Files := mg.Files ++
      [{ Name := name, Description := description, URL := url, Size := size,
         Extension := extension }] }

/-- Method `AddMegaLink`. -/
def MetalinkGenerator.AddMegaLink (mg : MetalinkGenerator) (url baseName : Str)
    (episodeNum : Nat) : MetalinkGenerator :=
  let name := baseName ++ bytes "_Episodio_" ++ decimal02 episodeNum ++ bytes ".mkv"
  let description := mg.Title ++ bytes " - Episodio " ++ decimal episodeNum
  let estimatedSize := 367001600
  mg.AddFile name description url estimatedSize (bytes "mkv")

/-- The first group of the leftmost match of the regular expression
`Episodio (\d+)`: the digits that follow the leftmost `Episodio ` that has a
digit after it. -/
def findEpisodeDigits : Str → Option Str
  | [] => none
  | b :: rest =>
    if HasPrefix (b :: rest) (bytes "Episodio ") && ((b :: rest).drop 9).head?.any isDigit then
      some (((b :: rest).drop 9).takeWhile isDigit)
    else findEpisodeDigits rest

/-- The update of `currentEpisode` that `ParseEpisodeDocument` makes at a
(trimmed) line. -/
def nextEpisode (currentEpisode : Nat) (line : Str) : Nat :=
  match CutPrefix line (bytes "EPISODIO:") with
  | some after =>
    let episodeStr := TrimSpace after
    match findEpisodeDigits episodeStr with
    | some digits =>
      match Atoi digits with
      | some num => num
      | none => currentEpisode
    | none => currentEpisode
  | none => currentEpisode

/-- The state of the loop of `ParseEpisodeDocument`. -/
structure ParseState where
  episodes : List (Nat × Str)
  currentEpisode : Nat
deriving DecidableEq, Repr

/-- The test `ParseEpisodeDocument` makes before it stores a link. -/
def isMegaLine (line : Str) (currentEpisode : Nat) : Bool :=
  Contains line (bytes "mega.nz") && HasPrefix line (bytes "Enlace:")
    && decide (currentEpisode > 0)

/-- One turn of the loop of `ParseEpisodeDocument`. -/
def parseLine (st : ParseState) (rawLine : Str) : ParseState :=
  let line := TrimSpace rawLine
  let currentEpisode := nextEpisode st.currentEpisode line
  if isMegaLine line currentEpisode then
    let url := TrimSpace (TrimPrefix line (bytes "Enlace:"))
    { episodes := mapSet st.episodes currentEpisode url, currentEpisode := currentEpisode }
  else
    { episodes := st.episodes, currentEpisode := currentEpisode }

/-- Function `ParseEpisodeDocument`. -/
def ParseEpisodeDocument (text : Str) : List (Nat × Str) :=
  ((SplitLines text).foldl parseLine { episodes := [], currentEpisode := 0 }).episodes

/-- Function `CreateMetalinkFromText`. -/
def CreateMetalinkFromText (text title baseName : Str) : Except Str MetalinkGenerator :=
  let episodes := ParseEpisodeDocument text
  if episodes.length = 0 then
    .error (bytes "no se encontraron episodios con enlaces MEGA")
  else
    .ok ((List.range' 1 12).foldl (fun mg i =>
      match mapGet episodes i with
      | some url => mg.AddMegaLink url baseName i
      | none => mg)
      (NewMetalinkGenerator title (bytes "Serie completa de anime") (bytes "Anime")))

/-- Function `ProcessFileToMetalink`, up to the generator it saves: `content` is what
it reads from `inputFile`. -/
def ProcessFileToMetalink (inputFile content : Str) : Except Str MetalinkGenerator :=
  let title := TrimSuffix inputFile (bytes ".txt")
  let baseName := ReplaceAllByte title 32 95
  CreateMetalinkFromText content title baseName

/-! ## main.go: the report file and the episode loop -/

/-- What `writeDownloadsToFile` leaves behind: the text of the report file and
what `ProcessFileToMetalink` made of it (the caller ignores that result). -/
structure Written where
  report : Str
  metalink : Except Str MetalinkGenerator

/-- Function `writeDownloadsToFile`; `createErr` is the error of `os.Create`, if any. -/
def writeDownloadsToFile (createErr : Option Str) (animeName now : Str)
    (episodes : List Episode) (allDownloads : List (Str × List Download)) :
    Except Str Written :=
  let filename := sanitizeFilename animeName ++ bytes ".txt"
  match createErr with
  | some err => .error (bytes "error creando archivo: " ++ err)
  | none =>
    let report := reportText animeName now episodes allDownloads
    .ok { report := report, metalink := ProcessFileToMetalink filename report }

/-- One turn of the episode loop of `processAnimes`; `fetch` stands for
`getDownloadLinksEpisode`. -/
def crawlStep (fetch : Str → Except Str (List Download))
    (allDownloads : List (Str × List Download)) (episode : Episode) :
    List (Str × List Download) :=
  match fetch episode.Link with
  | .error _ => allDownloads
  | .ok downloadList => mapSet allDownloads episode.Link downloadList

/-- The episode loop of `processAnimes`, from the empty map. -/
def crawl (fetch : Str → Except Str (List Download)) (episodesList : List Episode) :
    List (Str × List Download) :=
  episodesList.foldl (crawlStep fetch) []

/-- The part of `processAnimes` that follows the episode list: the loop and the
writing of the report. -/
def processEpisodes (fetch : Str → Except Str (List Download)) (createErr : Option Str)
    (animeName now : Str) (episodesList : List Episode) : Except Str Written :=
  let allDownloads := crawl fetch episodesList
  match writeDownloadsToFile createErr animeName now episodesList allDownloads with
  | .error err => .error (bytes "error escribiendo archivo: " ++ err)
  | .ok written => .ok written

/-! ## main.go: the selection of `processAnimes` -/

/-- Anime found by the search. -/
structure Anime where
  Name : Str
  Link : Str
deriving DecidableEq, Repr

/-- The function `strconv.Atoi` on any string (64-bit `int`): an optional `+` or `-`,
then one or more ASCII digits and nothing else; an error when there is no digit,
when another byte occurs, or when the value does not fit an `int`. -/
def AtoiInt (s : Str) : Option Int :=
  match s with
  | [] => none
  | c :: rest =>
    let digits := if c = 45 ∨ c = 43 then rest else c :: rest
    if digits.isEmpty || !digits.all isDigit then none
    else if c = 45 then
      if digitsVal digits ≤ intMax + 1 then some (-(digitsVal digits : Int)) else none
    else
      if digitsVal digits ≤ intMax then some (digitsVal digits : Int) else none

/-- The Go index expression `l[i]` for an `int` index: `none` stands for the
run-time panic of an index out of range. -/
def indexInt {α : Type} (l : List α) (i : Int) : Option α :=
  if i < 0 then none else l[i.toNat]?

/-- What the selection step of `processAnimes` comes to. -/
inductive Selection where
  | chosen (selectedAnime : Anime)
  | refused (err : Str)
  | outOfRange
deriving DecidableEq, Repr

/-- The error text `solo se aceptan números` (UTF-8). -/
def errNotNumber : Str := bytes "solo se aceptan n" ++ [195, 186] ++ bytes "meros"

/-- The error text `opción inválida` (UTF-8). -/
def errInvalidOption : Str :=
  bytes "opci" ++ [195, 179] ++ bytes "n inv" ++ [195, 161] ++ bytes "lida"

/-- The selection step of `processAnimes`: `input` is the line that was read. -/
def selectAnime (animesList : List Anime) (input : Str) : Selection :=
  let input := TrimSpace input
  match AtoiInt input with
  | none => .refused errNotNumber
  | some option =>
    if option < 1 ∨ option > (animesList.length : Int) then .refused errInvalidOption
    else
      match indexInt animesList (option - 1) with
      | some selectedAnime => .chosen selectedAnime
      | none => .outOfRange

/-- A run of `processAnimes`: its result (`none` for a panic) and the pages it
requested, in order. -/
structure ProcessRun where
  outcome : Option (Except Str Written)
  requested : List Str

/-- Function `processAnimes`: `readLine` is what `reader.ReadString` gave, `episodesOf`
stands for `getLinksEpisodes` and `fetch` for `getDownloadLinksEpisode`. -/
def processAnimes (animesList : List Anime) (readLine : Except Str Str)
    (episodesOf : Str → Str → Except Str (List Episode))
    (fetch : Str → Except Str (List Download)) (createErr : Option Str) (now : Str) :
    ProcessRun :=
  match readLine with
  | .error err =>
    { outcome := some (.error (bytes "error leyendo entrada: " ++ err)), requested := [] }
  | .ok input =>
    match selectAnime animesList input with
    | .refused err => { outcome := some (.error err), requested := [] }
    | .outOfRange => { outcome := none, requested := [] }
    | .chosen selectedAnime =>
      match episodesOf selectedAnime.Name selectedAnime.Link with
      | .error err =>
        { outcome := some (.error (bytes "error obteniendo episodios: " ++ err)),
          requested := [selectedAnime.Link] }
      | .ok episodesList =>
        if episodesList.length = 0 then
          { outcome := some (.error (bytes "no se encontraron episodios para este anime")),
            requested := [selectedAnime.Link] }
        else
          { outcome := some (processEpisodes fetch createErr selectedAnime.Name now
              episodesList),
            requested := selectedAnime.Link :: episodesList.map Episode.Link }

/-! ## Notions used in the statements -/

/-- No white-space rune stands at the head of `s`. -/
def NoSpaceHead (s : Str) : Prop :=
  spaceRunes.find? (fun p => p.isPrefixOf s) = none

/-- No white-space rune stands at the end of `s`. -/
def NoSpaceLast (s : Str) : Prop :=
  (spaceRunes.map List.reverse).find? (fun p => p.isPrefixOf s.reverse) = none

/-- The byte occurs in the encoding of some white-space rune. -/
def spaceByte (b : Nat) : Bool := spaceRunes.any (fun p => p.contains b)

/-- What `sanitizeFilename` puts in the place of a byte: an underscore for the
invalid characters and for the space. -/
def underscored (b : Nat) : Nat := if b ∈ invalidChars ∨ b = 32 then 95 else b

/-- Lines, each closed by a line feed. -/
def unlines (ls : List Str) : Str := (ls.map (fun l => l ++ [10])).flatten

/-- The lines of the block of one episode of the report. -/
def blockLines (name : Str) (downloads : List Download) : List Str :=
  [bytes "EPISODIO: " ++ name, bytes "----------------------------------------"]
    ++ downloads.flatMap (fun d =>
        [bytes "Proveedor: " ++ d.ProviderName, bytes "Enlace: " ++ d.DownloadURL, []])
    ++ [[]]

/-- The episodes that get a block, with their downloads: those whose link maps
to at least one download. -/
def shownEpisodes (episodes : List Episode) (allDownloads : List (Str × List Download)) :
    List (Str × List Download) :=
  episodes.filterMap (fun e =>
    match mapGet allDownloads e.Link with
    | some (d :: ds) => some (e.Name, d :: ds)
    | _ => none)

/-- The episodes whose fetch gave at least one link, with those links. -/
def fetchedEpisodes (fetch : Str → Except Str (List Download)) (episodes : List Episode) :
    List (Str × List Download) :=
  episodes.filterMap (fun e =>
    match fetch e.Link with
    | .ok (d :: ds) => some (e.Name, d :: ds)
    | _ => none)

/-- The lines as `ParseEpisodeDocument` scans them: each trimmed line with the
value `currentEpisode` has once the line's `EPISODIO:` test is done. -/
def scanLines : Nat → List Str → List (Nat × Str)
  | _, [] => []
  | currentEpisode, rawLine :: rest =>
    (nextEpisode currentEpisode (TrimSpace rawLine), TrimSpace rawLine)
      :: scanLines (nextEpisode currentEpisode (TrimSpace rawLine)) rest

/-- The file entry `AddMegaLink` makes for episode `n`. -/
def megaEntry (title baseName : Str) (n : Nat) (url : Str) : MetalinkFile :=
  { Name := baseName ++ bytes "_Episodio_" ++ decimal02 n ++ bytes ".mkv",
    Description := title ++ bytes " - Episodio " ++ decimal n,
    URL := url, Size := 367001600, Extension := bytes "mkv" }

/-- An episode name `Episodio <digits>` whose number is positive and fits an
`int`. -/
def wellNamed (name : Str) : Bool :=
  HasPrefix name (bytes "Episodio ") && !(name.drop 9).isEmpty && (name.drop 9).all isDigit
    && decide (0 < digitsVal (name.drop 9)) && decide (digitsVal (name.drop 9) ≤ intMax)

/-- The number of an episode named `Episodio <digits>`. -/
def episodeNumber (name : Str) : Nat := digitsVal (name.drop 9)

/-- A download whose provider name and URL have no line feed and whose URL, when
it contains `mega.nz`, has no white space at either end. -/
def cleanDownload (d : Download) : Bool :=
  !d.ProviderName.contains 10 && !d.DownloadURL.contains 10
    && (!Contains d.DownloadURL (bytes "mega.nz") || TrimSpace d.DownloadURL == d.DownloadURL)

/-- The URLs containing `mega.nz` of a download list, in order. -/
def megaURLs (downloads : List Download) : List Str :=
  (downloads.map Download.DownloadURL).filter (fun u => Contains u (bytes "mega.nz"))

/-- The URLs containing `mega.nz` that the report shows under an episode of
number `n`, in the order written. -/
def writtenLinks (episodes : List Episode) (allDownloads : List (Str × List Download))
    (n : Nat) : List Str :=
  (shownEpisodes episodes allDownloads).flatMap (fun p =>
    if episodeNumber p.1 = n then megaURLs p.2 else [])

/-- The map after the URLs `us` were stored, one after the other, under `n`. -/
def storeLinks (m : List (Nat × Str)) (n : Nat) (us : List Str) : List (Nat × Str) :=
  us.foldl (fun m u => mapSet m n u) m

/-- The line, once trimmed, starts with `Enlace:` and contains `mega.nz`. -/
def isLinkLine (rawLine : Str) : Bool :=
  Contains (TrimSpace rawLine) (bytes "mega.nz") && HasPrefix (TrimSpace rawLine) (bytes "Enlace:")

/-- The URL `ParseEpisodeDocument` takes from a link line. -/
def linkURL (rawLine : Str) : Str :=
  TrimSpace (TrimPrefix (TrimSpace rawLine) (bytes "Enlace:"))

/-- The line, once trimmed, starts with `EPISODIO:` and no episode number can be
read in it: the regular expression finds no `Episodio ` followed by a digit in
it, or the digits it finds are too large for an `int`. -/
def isUnnumberedLabel (rawLine : Str) : Bool :=
  match CutPrefix (TrimSpace rawLine) (bytes "EPISODIO:") with
  | none => false
  | some after =>
    match findEpisodeDigits (TrimSpace after) with
    | none => true
    | some digits => decide (intMax < digitsVal digits)

/-! # Theorems

## Removal of patterns at the head of a string -/

theorem stripFuel_of_find_none (pats : List Str) (n : Nat) (s : Str)
    (h : pats.find? (fun p => p.isPrefixOf s) = none) : stripFuel pats n s = s := by
  cases n with
  | zero => rfl
  | succ n => simp [stripFuel, h]

theorem stripFuel_isSuffix (pats : List Str) (n : Nat) (s : Str) :
    stripFuel pats n s <:+ s := by
  induction n generalizing s with
  | zero => exact List.suffix_refl _
  | succ n ih =>
    simp only [stripFuel]
    split
    · exact (ih _).trans (List.drop_suffix _ _)
    · exact List.suffix_refl _

theorem stripFuel_stable (pats : List Str) (hne : ∀ p ∈ pats, p ≠ []) (n : Nat) (s : Str)
    (hn : s.length ≤ n) :
    pats.find? (fun p => p.isPrefixOf (stripFuel pats n s)) = none := by
  induction n generalizing s with
  | zero =>
    have hs : s = [] := List.length_eq_zero.mp (Nat.le_zero.mp hn)
    subst hs
    simp only [stripFuel, List.find?_eq_none]
    intro p hp
    have := hne p hp
    cases p with
    | nil => exact absurd rfl this
    | cons a p => simp [List.isPrefixOf]
  | succ n ih =>
    simp only [stripFuel]
    split
    · rename_i p hp
      have hmem : p ∈ pats := List.mem_of_find?_eq_some hp
      have hpos : 0 < p.length := List.length_pos.mpr (hne p hmem)
      apply ih
      simp only [List.length_drop]
      omega
    · rename_i hp
      exact hp

theorem isPrefixOf_map_imp (f : Nat → Nat) (p : Str)
    (h2 : ∀ b, ∀ c ∈ p, f b = c → b = c) (s : Str) :
    p.isPrefixOf (s.map f) = true → p.isPrefixOf s = true := by
  induction p generalizing s with
  | nil => intro _; simp [List.isPrefixOf]
  | cons c p ih =>
    cases s with
    | nil => simp [List.isPrefixOf]
    | cons b s =>
      simp only [List.map_cons, List.isPrefixOf, Bool.and_eq_true, beq_iff_eq]
      intro ⟨h, hrest⟩
      have hb : b = c := h2 b c (List.mem_cons_self _ _) h.symm
      refine ⟨hb.symm, ih (fun b' c' hc' => h2 b' c' (List.mem_cons_of_mem _ hc')) s hrest⟩

theorem isPrefixOf_map_eq (f : Nat → Nat) (p : Str)
    (h1 : ∀ c ∈ p, f c = c) (h2 : ∀ b, ∀ c ∈ p, f b = c → b = c) (s : Str) :
    p.isPrefixOf (s.map f) = p.isPrefixOf s := by
  induction p generalizing s with
  | nil => simp [List.isPrefixOf]
  | cons c p ih =>
    cases s with
    | nil => simp [List.isPrefixOf]
    | cons b s =>
      simp only [List.map_cons, List.isPrefixOf]
      rw [ih (fun c' hc' => h1 c' (List.mem_cons_of_mem _ hc'))
        (fun b' c' hc' => h2 b' c' (List.mem_cons_of_mem _ hc'))]
      congr 1
      by_cases hbc : b = c
      · subst hbc
        simp [h1 b (List.mem_cons_self _ _)]
      · have : ¬ f b = c := fun h => hbc (h2 b c (List.mem_cons_self _ _) h)
        have e1 : (c == f b) = false := by simpa using fun h => this h.symm
        have e2 : (c == b) = false := by simpa using fun h => hbc h.symm
        rw [e1, e2]

theorem find_congr_mem {α : Type} (l : List α) (p q : α → Bool)
    (h : ∀ a ∈ l, p a = q a) : l.find? p = l.find? q := by
  induction l with
  | nil => rfl
  | cons a l ih =>
    simp only [List.find?, h a (List.mem_cons_self _ _)]
    rw [ih (fun b hb => h b (List.mem_cons_of_mem _ hb))]

theorem stripFuel_map (pats : List Str) (f : Nat → Nat)
    (h : ∀ p ∈ pats, ∀ s : Str, p.isPrefixOf (s.map f) = p.isPrefixOf s) (n : Nat) (s : Str) :
    stripFuel pats n (s.map f) = (stripFuel pats n s).map f := by
  induction n generalizing s with
  | zero => rfl
  | succ n ih =>
    have hfind : pats.find? (fun p => p.isPrefixOf (s.map f))
        = pats.find? (fun p => p.isPrefixOf s) := by
      exact find_congr_mem pats _ _ (fun p hp => h p hp s)
    simp only [stripFuel, hfind]
    split
    · rw [← List.map_drop, ih]
    · rfl

/-! ## White-space trimming -/

theorem spaceRunes_ne_nil : ∀ p ∈ spaceRunes, p ≠ [] := by decide

theorem spaceRunesRev_ne_nil : ∀ p ∈ spaceRunes.map List.reverse, p ≠ [] := by decide

theorem TrimLeftSpace_isSuffix (s : Str) : TrimLeftSpace s <:+ s :=
  stripFuel_isSuffix _ _ _

theorem TrimRightSpace_isPrefix (s : Str) : TrimRightSpace s <+: s := by
  have h := stripFuel_isSuffix (spaceRunes.map List.reverse) s.length s.reverse
  have h2 := List.reverse_prefix.mpr h
  simpa [TrimRightSpace] using h2

theorem TrimSpace_isInfix (s : Str) : TrimSpace s <:+: s :=
  (TrimRightSpace_isPrefix _).isInfix.trans (TrimLeftSpace_isSuffix s).isInfix

theorem TrimSpace_subset (s : Str) : ∀ b ∈ TrimSpace s, b ∈ s :=
  fun _ hb => (TrimSpace_isInfix s).subset hb

theorem TrimSpace_length_le (s : Str) : (TrimSpace s).length ≤ s.length :=
  (TrimSpace_isInfix s).length_le

theorem NoSpaceHead_TrimLeftSpace (s : Str) : NoSpaceHead (TrimLeftSpace s) :=
  stripFuel_stable spaceRunes spaceRunes_ne_nil s.length s (Nat.le_refl _)

theorem NoSpaceLast_TrimRightSpace (s : Str) : NoSpaceLast (TrimRightSpace s) := by
  have h := stripFuel_stable (spaceRunes.map List.reverse) spaceRunesRev_ne_nil
    s.reverse.length s.reverse (Nat.le_refl _)
  simpa [NoSpaceLast, TrimRightSpace] using h

theorem NoSpaceHead_of_isPrefix {s t : Str} (h : t <+: s) (hs : NoSpaceHead s) :
    NoSpaceHead t := by
  unfold NoSpaceHead at *
  rw [List.find?_eq_none] at *
  intro p hp hpt
  apply hs p hp
  rw [List.isPrefixOf_iff_prefix] at *
  exact hpt.trans h

theorem TrimLeftSpace_of_NoSpaceHead {s : Str} (h : NoSpaceHead s) : TrimLeftSpace s = s :=
  stripFuel_of_find_none _ _ _ h

theorem TrimRightSpace_of_NoSpaceLast {s : Str} (h : NoSpaceLast s) : TrimRightSpace s = s := by
  unfold TrimRightSpace
  rw [stripFuel_of_find_none _ _ _ h, List.reverse_reverse]

theorem NoSpaceHead_TrimSpace (s : Str) : NoSpaceHead (TrimSpace s) :=
  NoSpaceHead_of_isPrefix (TrimRightSpace_isPrefix _) (NoSpaceHead_TrimLeftSpace s)

theorem NoSpaceLast_TrimSpace (s : Str) : NoSpaceLast (TrimSpace s) :=
  NoSpaceLast_TrimRightSpace _

theorem TrimSpace_of_clean {s : Str} (h1 : NoSpaceHead s) (h2 : NoSpaceLast s) :
    TrimSpace s = s := by
  unfold TrimSpace
  rw [TrimLeftSpace_of_NoSpaceHead h1, TrimRightSpace_of_NoSpaceLast h2]

/-- A substitution that leaves a byte alone or puts an underscore. -/
theorem underscore_h2 (f : Nat → Nat) (hf : ∀ b, f b = b ∨ f b = 95) (p : Str)
    (hp : 95 ∉ p) : ∀ b, ∀ c ∈ p, f b = c → b = c := by
  intro b c hc hbc
  rcases hf b with h | h
  · rw [← h]; exact hbc
  · rw [h] at hbc
    exact absurd (hbc ▸ hc) hp

theorem spaceRunes_no_underscore : ∀ p ∈ spaceRunes, 95 ∉ p := by decide

theorem spaceRunesRev_no_underscore : ∀ p ∈ spaceRunes.map List.reverse, 95 ∉ p := by decide

theorem spaceRunes_valid : ∀ p ∈ spaceRunes, ∀ c ∈ p, c ∉ invalidChars := by decide

theorem spaceRunesRev_valid :
    ∀ p ∈ spaceRunes.map List.reverse, ∀ c ∈ p, c ∉ invalidChars := by decide

theorem NoSpaceHead_map (f : Nat → Nat) (hf : ∀ b, f b = b ∨ f b = 95) {s : Str}
    (h : NoSpaceHead s) : NoSpaceHead (s.map f) := by
  unfold NoSpaceHead at *
  rw [List.find?_eq_none] at *
  intro p hp hps
  exact h p hp (isPrefixOf_map_imp f p
    (underscore_h2 f hf p (spaceRunes_no_underscore p hp)) s hps)

theorem NoSpaceLast_map (f : Nat → Nat) (hf : ∀ b, f b = b ∨ f b = 95) {s : Str}
    (h : NoSpaceLast s) : NoSpaceLast (s.map f) := by
  unfold NoSpaceLast at *
  rw [List.find?_eq_none] at *
  intro p hp hps
  rw [← List.map_reverse] at hps
  exact h p hp (isPrefixOf_map_imp f p
    (underscore_h2 f hf p (spaceRunesRev_no_underscore p hp)) _ hps)

theorem TrimSpace_map (f : Nat → Nat) (hf : ∀ b, f b = b ∨ f b = 95)
    (hfix : ∀ b, b ∉ invalidChars → f b = b) (s : Str) :
    TrimSpace (s.map f) = (TrimSpace s).map f := by
  have hl : ∀ t : Str, TrimLeftSpace (t.map f) = (TrimLeftSpace t).map f := by
    intro t
    unfold TrimLeftSpace
    rw [List.length_map]
    apply stripFuel_map
    intro p hp u
    exact isPrefixOf_map_eq f p (fun c hc => hfix c (spaceRunes_valid p hp c hc))
      (underscore_h2 f hf p (spaceRunes_no_underscore p hp)) u
  have hr : ∀ t : Str, TrimRightSpace (t.map f) = (TrimRightSpace t).map f := by
    intro t
    unfold TrimRightSpace
    rw [List.length_map, ← List.map_reverse, stripFuel_map, List.map_reverse]
    intro p hp u
    exact isPrefixOf_map_eq f p (fun c hc => hfix c (spaceRunesRev_valid p hp c hc))
      (underscore_h2 f hf p (spaceRunesRev_no_underscore p hp)) u
  unfold TrimSpace
  rw [hl, hr]

/-! ## sanitizeFilename -/

theorem sanitizeFilename_eq_take (s : Str) :
    sanitizeFilename s = ((TrimSpace s).map underscored).take 100 := by
  have h1 : TrimSpace (replaceInvalid s) = replaceInvalid (TrimSpace s) := by
    unfold replaceInvalid
    apply TrimSpace_map
    · intro b; by_cases hb : b ∈ invalidChars <;> simp [hb]
    · intro b hb; simp [hb]
  have h2 : ∀ t : Str, ReplaceAllByte (replaceInvalid t) 32 95 = t.map underscored := by
    intro t
    unfold ReplaceAllByte replaceInvalid underscored
    rw [List.map_map]
    apply List.map_congr_left
    intro b _
    by_cases hb : b ∈ invalidChars
    · simp [hb]
    · by_cases hb2 : b = 32 <;> simp [hb, hb2]
  unfold sanitizeFilename
  simp only [h1, h2]
  split
  · rfl
  · rename_i h
    rw [List.take_of_length_le (by omega)]

theorem underscored_ok (b : Nat) : underscored b ∉ invalidChars ∧ underscored b ≠ 32 := by
  unfold underscored
  by_cases h : b ∈ invalidChars ∨ b = 32
  · rw [if_pos h]; decide
  · rw [if_neg h]
    push_neg at h
    exact h

theorem underscored_cases (b : Nat) : underscored b = b ∨ underscored b = 95 := by
  unfold underscored
  by_cases h : b ∈ invalidChars ∨ b = 32
  · right; rw [if_pos h]
  · left; rw [if_neg h]

theorem underscored_fix {b : Nat} (h : b ∉ invalidChars ∧ b ≠ 32) : underscored b = b := by
  unfold underscored
  rw [if_neg]
  push_neg
  exact h

theorem sanitizeFilename_bytes (s : Str) :
    ∀ b ∈ sanitizeFilename s, b ∉ invalidChars ∧ b ≠ 32 := by
  intro b hb
  rw [sanitizeFilename_eq_take] at hb
  have hb2 := List.mem_of_mem_take hb
  rw [List.mem_map] at hb2
  obtain ⟨c, _, rfl⟩ := hb2
  exact underscored_ok c

theorem sanitizeFilename_length (s : Str) : (sanitizeFilename s).length ≤ 100 := by
  rw [sanitizeFilename_eq_take, List.length_take]
  exact Nat.min_le_left _ _

theorem map_underscored_fix (t : Str) (h : ∀ b ∈ t, b ∉ invalidChars ∧ b ≠ 32) :
    t.map underscored = t := by
  conv_rhs => rw [← List.map_id t]
  apply List.map_congr_left
  intro b hb
  exact underscored_fix (h b hb)

theorem sanitizeFilename_twice_eq (s : Str) :
    sanitizeFilename (sanitizeFilename s) = TrimSpace (sanitizeFilename s) := by
  have hsub : ∀ b ∈ TrimSpace (sanitizeFilename s), b ∉ invalidChars ∧ b ≠ 32 :=
    fun b hb => sanitizeFilename_bytes s b (TrimSpace_subset _ b hb)
  have hlen : (TrimSpace (sanitizeFilename s)).length ≤ 100 :=
    (TrimSpace_length_le _).trans (sanitizeFilename_length s)
  rw [sanitizeFilename_eq_take (sanitizeFilename s), map_underscored_fix _ hsub,
    List.take_of_length_le hlen]

theorem sanitizeFilename_fixed_of_short (s : Str) (h : (TrimSpace s).length ≤ 100) :
    sanitizeFilename (sanitizeFilename s) = sanitizeFilename s := by
  rw [sanitizeFilename_twice_eq]
  have e : sanitizeFilename s = (TrimSpace s).map underscored := by
    rw [sanitizeFilename_eq_take, List.take_of_length_le (by simpa using h)]
  rw [e]
  exact TrimSpace_of_clean (NoSpaceHead_map _ underscored_cases (NoSpaceHead_TrimSpace s))
    (NoSpaceLast_map _ underscored_cases (NoSpaceLast_TrimSpace s))

/-! ## The report writer -/

theorem bytes_lf : bytes "\n" = [10] := by decide

theorem bytes_lf2 : bytes "\n\n" = [10, 10] := by decide

theorem bytes_dashes_lf : bytes "----------------------------------------\n"
    = bytes "----------------------------------------" ++ [10] := by decide

theorem unlines_append (a b : List Str) : unlines (a ++ b) = unlines a ++ unlines b := by
  simp [unlines]

theorem unlines_cons (l : Str) (ls : List Str) : unlines (l :: ls) = l ++ 10 :: unlines ls := by
  simp [unlines]

theorem unlines_nil : unlines [] = [] := rfl

theorem foldl_writeDownload (downloads : List Download) (file : Str) :
    downloads.foldl writeDownload file = file ++ unlines (downloads.flatMap (fun d =>
      [bytes "Proveedor: " ++ d.ProviderName, bytes "Enlace: " ++ d.DownloadURL, []])) := by
  induction downloads generalizing file with
  | nil => simp [unlines]
  | cons d ds ih =>
    rw [List.foldl_cons, ih, List.flatMap_cons, unlines_append]
    simp [writeDownload, unlines, bytes_lf, bytes_lf2]

theorem writeEpisode_skip (allDownloads : List (Str × List Download)) (file : Str)
    (e : Episode) (h : mapGet allDownloads e.Link = none ∨ mapGet allDownloads e.Link = some []) :
    writeEpisode allDownloads file e = file := by
  rcases h with h | h <;> simp [writeEpisode, h]

theorem writeEpisode_block (allDownloads : List (Str × List Download)) (file : Str)
    (e : Episode) (d : Download) (ds : List Download)
    (h : mapGet allDownloads e.Link = some (d :: ds)) :
    writeEpisode allDownloads file e = file ++ unlines (blockLines e.Name (d :: ds)) := by
  simp only [writeEpisode, h, List.length_cons, Nat.add_one_ne_zero, if_false]
  rw [foldl_writeDownload]
  simp [blockLines, unlines, bytes_lf, bytes_dashes_lf]

theorem foldl_writeEpisode (allDownloads : List (Str × List Download))
    (episodes : List Episode) (file : Str) :
    episodes.foldl (writeEpisode allDownloads) file
      = file ++ unlines ((shownEpisodes episodes allDownloads).flatMap
          (fun p => blockLines p.1 p.2)) := by
  induction episodes generalizing file with
  | nil => simp [shownEpisodes, unlines]
  | cons e es ih =>
    rw [List.foldl_cons, ih]
    unfold shownEpisodes
    rw [List.filterMap_cons]
    cases h : mapGet allDownloads e.Link with
    | none => rw [writeEpisode_skip _ _ _ (Or.inl h)]
    | some dl =>
      cases dl with
      | nil => rw [writeEpisode_skip _ _ _ (Or.inr h)]
      | cons d ds =>
        rw [writeEpisode_block _ _ _ d ds h]
        simp only [List.flatMap_cons, unlines_append, List.append_assoc]

theorem reportText_eq (animeName now : Str) (episodes : List Episode)
    (allDownloads : List (Str × List Download)) :
    reportText animeName now episodes allDownloads
      = writeHeader animeName now ++ unlines ((shownEpisodes episodes allDownloads).flatMap
          (fun p => blockLines p.1 p.2)) :=
  foldl_writeEpisode _ _ _

/-! ## The episode loop -/

theorem lookup_filter_ne {κ ν : Type} [BEq κ] [LawfulBEq κ] (m : List (κ × ν)) (k k' : κ)
    (h : k' ≠ k) :
    (m.filter (fun p => !(p.1 == k))).lookup k' = m.lookup k' := by
  induction m with
  | nil => rfl
  | cons p m ih =>
    obtain ⟨a, v⟩ := p
    by_cases ha : a = k
    · subst ha
      have hk : (k' == a) = false := by simpa using h
      simp [List.filter, List.lookup, hk, ih]
    · have hak : (a == k) = false := by simpa using ha
      simp only [List.filter, hak, Bool.not_false, List.lookup]
      rw [ih]

theorem mapGet_mapSet {κ ν : Type} [BEq κ] [LawfulBEq κ] [DecidableEq κ] (m : List (κ × ν)) (k k' : κ)
    (v : ν) :
    mapGet (mapSet m k v) k' = if k' = k then some v else mapGet m k' := by
  unfold mapGet mapSet
  by_cases h : k' = k
  · subst h; simp [List.lookup]
  · have hk : (k' == k) = false := by simpa using h
    simp only [List.lookup, hk, if_neg h]
    exact lookup_filter_ne m k k' h

theorem mapGet_foldl_crawlStep (fetch : Str → Except Str (List Download))
    (episodes : List Episode) (m : List (Str × List Download)) (link : Str) :
    mapGet (episodes.foldl (crawlStep fetch) m) link
      = if link ∈ episodes.map Episode.Link then
          ((fetch link).toOption).or (mapGet m link)
        else mapGet m link := by
  induction episodes generalizing m with
  | nil => simp
  | cons e es ih =>
    rw [List.foldl_cons, ih]
    have hstep : mapGet (crawlStep fetch m e) link
        = if link = e.Link then ((fetch link).toOption).or (mapGet m link)
          else mapGet m link := by
      unfold crawlStep
      by_cases hl : link = e.Link
      · subst hl
        cases hf : fetch e.Link with
        | error err => simp [Except.toOption]
        | ok dl => simp [Except.toOption, mapGet_mapSet]
      · cases hf : fetch e.Link with
        | error err => simp [hl]
        | ok dl => simp [hl, mapGet_mapSet]
    rw [hstep]
    by_cases hl : link = e.Link
    · subst hl
      cases hf : (fetch e.Link).toOption <;> simp
    · by_cases hmem : link ∈ es.map Episode.Link
      · simp [hl, hmem]
      · have : link ∉ (e :: es).map Episode.Link := by
          simp only [List.map_cons, List.mem_cons, not_or]
          exact ⟨hl, hmem⟩
        simp [hl, hmem, this]

theorem mapGet_crawl (fetch : Str → Except Str (List Download)) (episodes : List Episode)
    (link : Str) :
    mapGet (crawl fetch episodes) link
      = if link ∈ episodes.map Episode.Link then (fetch link).toOption else none := by
  unfold crawl
  rw [mapGet_foldl_crawlStep]
  simp [mapGet]

theorem shownEpisodes_crawl_aux (fetch : Str → Except Str (List Download))
    (all : List Episode) (episodes : List Episode) (h : ∀ e ∈ episodes, e ∈ all) :
    episodes.filterMap (fun e =>
      match mapGet (crawl fetch all) e.Link with
      | some (d :: ds) => some (e.Name, d :: ds)
      | _ => none) = fetchedEpisodes fetch episodes := by
  unfold fetchedEpisodes
  apply List.filterMap_congr
  intro e he
  have hmem : e.Link ∈ all.map Episode.Link := List.mem_map_of_mem _ (h e he)
  rw [mapGet_crawl, if_pos hmem]
  cases hf : fetch e.Link with
  | error err => simp [Except.toOption]
  | ok dl => cases dl <;> simp [Except.toOption]

theorem shownEpisodes_crawl (fetch : Str → Except Str (List Download))
    (episodes : List Episode) :
    shownEpisodes episodes (crawl fetch episodes) = fetchedEpisodes fetch episodes :=
  shownEpisodes_crawl_aux fetch episodes episodes (fun _ h => h)

/-! ## The parser of the report -/

theorem mapGet_parseLine (st : ParseState) (l : Str) (n : Nat) :
    mapGet (parseLine st l).episodes n
      = if isMegaLine (TrimSpace l) (nextEpisode st.currentEpisode (TrimSpace l)) = true
            ∧ n = nextEpisode st.currentEpisode (TrimSpace l) then
          some (TrimSpace (TrimPrefix (TrimSpace l) (bytes "Enlace:")))
        else mapGet st.episodes n := by
  unfold parseLine
  dsimp only
  by_cases hm : isMegaLine (TrimSpace l) (nextEpisode st.currentEpisode (TrimSpace l)) = true
  · rw [if_pos hm, mapGet_mapSet]
    by_cases hn : n = nextEpisode st.currentEpisode (TrimSpace l)
    · rw [if_pos hn, if_pos ⟨hm, hn⟩]
    · rw [if_neg hn, if_neg (fun h => hn h.2)]
  · rw [if_neg hm, if_neg (fun h => hm h.1)]

theorem parseLine_currentEpisode (st : ParseState) (l : Str) :
    (parseLine st l).currentEpisode = nextEpisode st.currentEpisode (TrimSpace l) := by
  unfold parseLine
  dsimp only
  split <;> rfl

theorem mapGet_foldl_parseLine (lines : List Str) (st : ParseState) (n : Nat) :
    mapGet (lines.foldl parseLine st).episodes n
      = ((((scanLines st.currentEpisode lines).filter
            (fun p => isMegaLine p.2 p.1 && p.1 == n)).getLast?).map
            (fun p => TrimSpace (TrimPrefix p.2 (bytes "Enlace:")))).or
          (mapGet st.episodes n) := by
  induction lines generalizing st with
  | nil => simp [scanLines]
  | cons l ls ih =>
    rw [List.foldl_cons, ih, parseLine_currentEpisode, mapGet_parseLine]
    simp only [scanLines]
    rw [List.filter_cons]
    by_cases hm : isMegaLine (TrimSpace l) (nextEpisode st.currentEpisode (TrimSpace l)) = true
    · by_cases hn : n = nextEpisode st.currentEpisode (TrimSpace l)
      · subst hn
        rw [if_pos ⟨hm, rfl⟩]
        simp only [hm, beq_self_eq_true, Bool.and_self, if_true]
        rw [← List.singleton_append, List.getLast?_append]
        cases ((scanLines _ ls).filter _).getLast? <;> simp
      · rw [if_neg (fun h => hn h.2)]
        have : (nextEpisode st.currentEpisode (TrimSpace l) == n) = false := by
          simpa using fun h => hn h.symm
        simp only [this, Bool.and_false, Bool.false_eq_true, if_false]
    · rw [if_neg (fun h => hm h.1)]
      have hm2 : isMegaLine (TrimSpace l) (nextEpisode st.currentEpisode (TrimSpace l)) = false := by
        simpa using hm
      simp only [hm2, Bool.false_and, Bool.false_eq_true, if_false]

theorem mapGet_ParseEpisodeDocument (text : Str) (n : Nat) :
    mapGet (ParseEpisodeDocument text) n
      = (((scanLines 0 (SplitLines text)).filter
            (fun p => isMegaLine p.2 p.1 && p.1 == n)).getLast?).map
            (fun p => TrimSpace (TrimPrefix p.2 (bytes "Enlace:"))) := by
  unfold ParseEpisodeDocument
  rw [mapGet_foldl_parseLine]
  simp [mapGet]

/-! ## The converter -/

theorem foldl_AddMegaLink (episodes : List (Nat × Str)) (baseName : Str) (l : List Nat)
    (mg : MetalinkGenerator) :
    (l.foldl (fun mg i =>
      match mapGet episodes i with
      | some url => mg.AddMegaLink url baseName i
      | none => mg) mg)
      = { mg with Files := mg.Files ++ l.filterMap (fun n =>
            (mapGet episodes n).map (megaEntry mg.Title baseName n)) } := by
  induction l generalizing mg with
  | nil => simp
  | cons i l ih =>
    rw [List.foldl_cons, ih, List.filterMap_cons]
    cases h : mapGet episodes i with
    | none => simp
    | some url =>
      simp [MetalinkGenerator.AddMegaLink, MetalinkGenerator.AddFile, megaEntry]

theorem CreateMetalinkFromText_ok (text title baseName : Str)
    (h : ParseEpisodeDocument text ≠ []) :
    CreateMetalinkFromText text title baseName
      = .ok { Title := title, Description := bytes "Serie completa de anime",
              Category := bytes "Anime",
              Files := (List.range' 1 12).filterMap (fun n =>
                (mapGet (ParseEpisodeDocument text) n).map (megaEntry title baseName n)) } := by
  unfold CreateMetalinkFromText
  have hlen : (ParseEpisodeDocument text).length ≠ 0 := by
    simpa [List.length_eq_zero] using h
  simp only [hlen, if_false]
  rw [foldl_AddMegaLink]
  simp [NewMetalinkGenerator]

theorem CreateMetalinkFromText_error (text title baseName : Str)
    (h : ParseEpisodeDocument text = []) :
    CreateMetalinkFromText text title baseName
      = .error (bytes "no se encontraron episodios con enlaces MEGA") := by
  unfold CreateMetalinkFromText
  simp [h]

theorem parseLine_no_label (l : Str) (h : HasPrefix (TrimSpace l) (bytes "EPISODIO:") = false) :
    parseLine { episodes := [], currentEpisode := 0 } l
      = { episodes := [], currentEpisode := 0 } := by
  have hn : nextEpisode 0 (TrimSpace l) = 0 := by
    simp [nextEpisode, CutPrefix, h]
  unfold parseLine
  simp [hn, isMegaLine]

theorem foldl_parseLine_no_label (lines : List Str)
    (h : ∀ l ∈ lines, HasPrefix (TrimSpace l) (bytes "EPISODIO:") = false) :
    lines.foldl parseLine { episodes := [], currentEpisode := 0 }
      = { episodes := [], currentEpisode := 0 } := by
  induction lines with
  | nil => rfl
  | cons l ls ih =>
    rw [List.foldl_cons, parseLine_no_label l (h l (List.mem_cons_self _ _))]
    exact ih (fun l' hl' => h l' (List.mem_cons_of_mem _ hl'))

/-! ## Trimming lines whose first bytes are not white space -/

theorem not_mem_of_spaceByte {b : Nat} (h : spaceByte b = false) :
    ∀ p ∈ spaceRunes, b ∉ p := by
  intro p hp hb
  have : spaceByte b = true := by
    unfold spaceByte
    rw [List.any_eq_true]
    exact ⟨p, hp, by simpa using hb⟩
  rw [h] at this
  cases this

theorem not_mem_rev_of_spaceByte {b : Nat} (h : spaceByte b = false) :
    ∀ p ∈ spaceRunes.map List.reverse, b ∉ p := by
  intro p hp hb
  rw [List.mem_map] at hp
  obtain ⟨q, hq, rfl⟩ := hp
  exact not_mem_of_spaceByte h q hq (List.mem_reverse.mp hb)

theorem find_none_of_head (pats : List Str) (hne : ∀ p ∈ pats, p ≠ []) (a : Nat) (s : Str)
    (ha : ∀ p ∈ pats, a ∉ p) :
    pats.find? (fun p => p.isPrefixOf (a :: s)) = none := by
  rw [List.find?_eq_none]
  intro p hp hpre
  cases p with
  | nil => exact hne [] hp rfl
  | cons c p =>
    simp only [List.isPrefixOf, Bool.and_eq_true, beq_iff_eq] at hpre
    exact ha (c :: p) hp (hpre.1 ▸ List.mem_cons_self _ _)

theorem NoSpaceHead_cons {a : Nat} (s : Str) (ha : spaceByte a = false) :
    NoSpaceHead (a :: s) :=
  find_none_of_head spaceRunes spaceRunes_ne_nil a s (not_mem_of_spaceByte ha)

theorem NoSpaceLast_concat {a : Nat} (s : Str) (ha : spaceByte a = false) :
    NoSpaceLast (s ++ [a]) := by
  unfold NoSpaceLast
  rw [List.reverse_append, List.reverse_singleton, List.singleton_append]
  exact find_none_of_head _ spaceRunesRev_ne_nil a _ (not_mem_rev_of_spaceByte ha)

theorem length_le_of_prefix_append (p x : Str) (r : Nat) (R : Str)
    (hp : p <+: x ++ r :: R) (hr : r ∉ p) : p.length ≤ x.length := by
  rcases List.prefix_or_prefix_of_prefix hp (List.prefix_append x (r :: R)) with h | h
  · exact h.length_le
  · obtain ⟨t, rfl⟩ := h
    rw [List.prefix_append_right_inj] at hp
    cases t with
    | nil => simp
    | cons c t =>
      have hc : c = r := by
        obtain ⟨u, hu⟩ := hp
        simp only [List.cons_append, List.cons.injEq] at hu
        exact hu.1
      subst hc
      exact absurd (List.mem_append_right x (List.mem_cons_self _ _)) hr

theorem stripFuel_append_keep (pats : List Str) (r : Nat) (hr : ∀ p ∈ pats, r ∉ p)
    (R : Str) (n : Nat) (x : Str) :
    ∃ x', stripFuel pats n (x ++ r :: R) = x' ++ r :: R := by
  induction n generalizing x with
  | zero => exact ⟨x, rfl⟩
  | succ n ih =>
    simp only [stripFuel]
    split
    · rename_i p hp
      have hmem : p ∈ pats := List.mem_of_find?_eq_some hp
      have hpre : p.isPrefixOf (x ++ r :: R) = true := by
        have := List.find?_some hp
        simpa using this
      rw [List.isPrefixOf_iff_prefix] at hpre
      have hlen := length_le_of_prefix_append p x r R hpre (hr p hmem)
      rw [List.drop_append_of_le_length hlen]
      exact ih _
    · exact ⟨x, rfl⟩

/-- Trimming keeps a first byte that is no white-space byte. -/
theorem TrimSpace_cons (a : Nat) (s : Str) (ha : spaceByte a = false) :
    ∃ s', TrimSpace (a :: s) = a :: s' := by
  unfold TrimSpace
  rw [TrimLeftSpace_of_NoSpaceHead (NoSpaceHead_cons s ha)]
  unfold TrimRightSpace
  have hrev : (a :: s).reverse = s.reverse ++ a :: [] := by simp
  rw [hrev]
  obtain ⟨x', hx'⟩ := stripFuel_append_keep (spaceRunes.map List.reverse) a
    (not_mem_rev_of_spaceByte ha) [] (a :: s).length s.reverse
  rw [hx']
  exact ⟨x'.reverse, by simp⟩

/-- Trimming keeps the first two bytes when neither is a white-space byte. -/
theorem TrimSpace_cons_cons (a b : Nat) (s : Str) (ha : spaceByte a = false)
    (hb : spaceByte b = false) :
    ∃ s', TrimSpace (a :: b :: s) = a :: b :: s' := by
  unfold TrimSpace
  rw [TrimLeftSpace_of_NoSpaceHead (NoSpaceHead_cons _ ha)]
  unfold TrimRightSpace
  have hrev : (a :: b :: s).reverse = s.reverse ++ b :: [a] := by simp
  rw [hrev]
  obtain ⟨x', hx'⟩ := stripFuel_append_keep (spaceRunes.map List.reverse) b
    (not_mem_rev_of_spaceByte hb) [a] (a :: b :: s).length s.reverse
  rw [hx']
  exact ⟨x'.reverse, by simp⟩

/-- A string that begins and ends with bytes that are no white-space bytes is
left as it is. -/
theorem TrimSpace_cons_concat (a z : Nat) (s : Str) (ha : spaceByte a = false)
    (hz : spaceByte z = false) : TrimSpace (a :: (s ++ [z])) = a :: (s ++ [z]) := by
  apply TrimSpace_of_clean (NoSpaceHead_cons _ ha)
  rw [← List.cons_append]
  exact NoSpaceLast_concat _ hz

theorem TrimSpace_nil : TrimSpace [] = [] := by decide

/-! ## Contains -/

theorem Contains_iff_isInfix (s sub : Str) : Contains s sub = true ↔ sub <:+: s := by
  induction s with
  | nil =>
    simp only [Contains, List.isPrefixOf_iff_prefix, List.prefix_nil, List.infix_nil]
  | cons b rest ih =>
    simp only [Contains, Bool.or_eq_true, List.isPrefixOf_iff_prefix, ih,
      List.infix_cons_iff]

theorem Contains_of_isInfix {s t sub : Str} (h : t <:+: s) (ht : Contains t sub = true) :
    Contains s sub = true := by
  rw [Contains_iff_isInfix] at *
  exact ht.trans h

theorem Contains_TrimSpace_false {s sub : Str} (h : Contains s sub = false) :
    Contains (TrimSpace s) sub = false := by
  by_contra hc
  have hc2 : Contains (TrimSpace s) sub = true := by simpa using hc
  rw [Contains_of_isInfix (TrimSpace_isInfix s) hc2] at h
  cases h

/-! ## Splitting into lines -/

theorem SplitLines_append_lf (l rest : Str) (h : 10 ∉ l) :
    SplitLines (l ++ 10 :: rest) = l :: SplitLines rest := by
  induction l with
  | nil => simp [SplitLines]
  | cons b l ih =>
    have hb : b ≠ 10 := fun hb => h (hb ▸ List.mem_cons_self _ _)
    have hl : 10 ∉ l := fun hl => h (List.mem_cons_of_mem _ hl)
    have e : SplitLines (b :: (l ++ 10 :: rest))
        = match SplitLines (l ++ 10 :: rest) with
          | [] => [[b]]
          | l' :: ls => (b :: l') :: ls := by
      simp only [SplitLines, hb, if_false]
    rw [List.cons_append, e, ih hl]

theorem SplitLines_unlines (ls : List Str) (h : ∀ l ∈ ls, 10 ∉ l) :
    SplitLines (unlines ls) = ls ++ [[]] := by
  induction ls with
  | nil => simp [unlines, SplitLines]
  | cons l ls ih =>
    rw [unlines_cons, SplitLines_append_lf _ _ (h l (List.mem_cons_self _ _)),
      ih (fun l' hl' => h l' (List.mem_cons_of_mem _ hl'))]
    rfl

/-! ## The literals of the report -/

theorem bytes_label : bytes "EPISODIO:" = [69, 80, 73, 83, 79, 68, 73, 79, 58] := by decide

theorem bytes_label_sp : bytes "EPISODIO: " = [69, 80, 73, 83, 79, 68, 73, 79, 58, 32] := by
  decide

theorem bytes_enlace : bytes "Enlace:" = [69, 110, 108, 97, 99, 101, 58] := by decide

theorem bytes_enlace_sp : bytes "Enlace: " = [69, 110, 108, 97, 99, 101, 58, 32] := by decide

theorem bytes_mega : bytes "mega.nz" = [109, 101, 103, 97, 46, 110, 122] := by decide

theorem bytes_episodio_sp : bytes "Episodio " = [69, 112, 105, 115, 111, 100, 105, 111, 32] := by
  decide

theorem bytes_proveedor : bytes "Proveedor: "
    = 80 :: [114, 111, 118, 101, 101, 100, 111, 114, 58, 32] := by decide

theorem bytes_generado : bytes "Generado el: "
    = 71 :: [101, 110, 101, 114, 97, 100, 111, 32, 101, 108, 58, 32] := by decide

theorem bytes_enlaces : bytes "ENLACES DE DESCARGA - "
    = 69 :: 78 :: [76, 65, 67, 69, 83, 32, 68, 69, 32, 68, 69, 83, 67, 65, 82, 71, 65, 32, 45, 32] := by
  decide

theorem bytes_dashes : bytes "----------------------------------------"
    = 45 :: List.replicate 39 45 := by decide

theorem bytes_equals_lf2 : bytes "========================================\n\n"
    = (61 :: List.replicate 39 61) ++ [10] ++ [10] := by decide

theorem spaceByte_of_isDigit {d : Nat} (h : isDigit d = true) : spaceByte d = false := by
  simp only [isDigit, Bool.and_eq_true, decide_eq_true_eq] at h
  obtain ⟨h1, h2⟩ := h
  interval_cases d <;> decide

theorem lf_of_isDigit {d : Nat} (h : isDigit d = true) : d ≠ 10 := by
  simp only [isDigit, Bool.and_eq_true, decide_eq_true_eq] at h
  omega

/-! ## What the parser does at each kind of line of a report -/

theorem parseLine_inert (st : ParseState) (l : Str)
    (h1 : HasPrefix (TrimSpace l) (bytes "EPISODIO:") = false)
    (h2 : HasPrefix (TrimSpace l) (bytes "Enlace:") = false) : parseLine st l = st := by
  have hn : nextEpisode st.currentEpisode (TrimSpace l) = st.currentEpisode := by
    simp [nextEpisode, CutPrefix, h1]
  unfold parseLine
  simp [hn, isMegaLine, h2]

theorem parseLine_nil (st : ParseState) : parseLine st [] = st := by
  apply parseLine_inert <;> rw [TrimSpace_nil] <;> decide

theorem parseLine_of_head (st : ParseState) (a : Nat) (s : Str) (ha : spaceByte a = false)
    (hE : a ≠ 69) : parseLine st (a :: s) = st := by
  obtain ⟨s', hs'⟩ := TrimSpace_cons a s ha
  have hne : (69 == a) = false := by simpa using fun h => hE h.symm
  apply parseLine_inert <;> rw [hs']
  · simp [HasPrefix, bytes_label, List.isPrefixOf, hne]
  · simp [HasPrefix, bytes_enlace, List.isPrefixOf, hne]

theorem parseLine_of_head2 (st : ParseState) (a b : Nat) (s : Str) (ha : spaceByte a = false)
    (hb : spaceByte b = false) (h1 : b ≠ 80) (h2 : b ≠ 110) :
    parseLine st (a :: b :: s) = st := by
  obtain ⟨s', hs'⟩ := TrimSpace_cons_cons a b s ha hb
  have hne1 : (80 == b) = false := by simpa using fun h => h1 h.symm
  have hne2 : (110 == b) = false := by simpa using fun h => h2 h.symm
  apply parseLine_inert <;> rw [hs']
  · simp [HasPrefix, bytes_label, List.isPrefixOf, hne1]
  · simp [HasPrefix, bytes_enlace, List.isPrefixOf, hne2]

theorem TrimSpace_space_cons (s : Str) (h1 : NoSpaceHead s) (h2 : NoSpaceLast s) :
    TrimSpace (32 :: s) = s := by
  have hl : TrimLeftSpace (32 :: s) = s := by
    unfold TrimLeftSpace
    have hfind : spaceRunes.find? (fun p => p.isPrefixOf (32 :: s)) = some [32] := by
      simp [spaceRunes, List.find?, List.isPrefixOf]
    simp only [List.length_cons, stripFuel, hfind, List.length_singleton, List.drop_succ_cons,
      List.drop_zero]
    exact stripFuel_of_find_none _ _ _ h1
  unfold TrimSpace
  rw [hl, TrimRightSpace_of_NoSpaceLast h2]

theorem wellNamed_elim {name : Str} (h : wellNamed name = true) :
    ∃ ds z, name = bytes "Episodio " ++ (ds ++ [z]) ∧ name.drop 9 = ds ++ [z]
      ∧ (∀ d ∈ ds ++ [z], isDigit d = true)
      ∧ 0 < digitsVal (ds ++ [z]) ∧ digitsVal (ds ++ [z]) ≤ intMax := by
  simp only [wellNamed, Bool.and_eq_true, decide_eq_true_eq, Bool.not_eq_true',
    List.all_eq_true, HasPrefix] at h
  obtain ⟨⟨⟨⟨hpre, hne⟩, hdig⟩, hpos⟩, hmax⟩ := h
  rw [List.isPrefixOf_iff_prefix] at hpre
  obtain ⟨t, ht⟩ := hpre
  have hdrop : name.drop 9 = t := by
    rw [← ht, bytes_episodio_sp]
    rfl
  rw [hdrop] at hne hdig hpos hmax
  have htne : t ≠ [] := by
    intro h0
    rw [h0] at hne
    simp at hne
  obtain ⟨ds, z, hz⟩ : ∃ ds z, t = ds ++ [z] :=
    ⟨t.dropLast, t.getLast htne, (List.dropLast_append_getLast htne).symm⟩
  subst hz
  exact ⟨ds, z, ht.symm, hdrop, hdig, hpos, hmax⟩

theorem findEpisodeDigits_cons (b : Nat) (rest : Str) :
    findEpisodeDigits (b :: rest)
      = if (HasPrefix (b :: rest) (bytes "Episodio ")
            && ((b :: rest).drop 9).head?.any isDigit) = true then
          some (((b :: rest).drop 9).takeWhile isDigit)
        else findEpisodeDigits rest := by
  simp only [findEpisodeDigits]

theorem findEpisodeDigits_digits (ds : Str) (z : Nat) (h : ∀ d ∈ ds ++ [z], isDigit d = true) :
    findEpisodeDigits (bytes "Episodio " ++ (ds ++ [z])) = some (ds ++ [z]) := by
  have htw : (ds ++ [z]).takeWhile isDigit = ds ++ [z] := by
    rw [List.takeWhile_eq_self_iff]
    exact h
  have hhead : ((ds ++ [z]).head?).any isDigit = true := by
    cases ds with
    | nil => simpa using h z (by simp)
    | cons d ds => simpa using h d (by simp)
  have hlen : (bytes "Episodio ").length = 9 := by decide
  have hdrop : (bytes "Episodio " ++ (ds ++ [z])).drop 9 = ds ++ [z] :=
    List.drop_left' hlen
  have hpre : HasPrefix (bytes "Episodio " ++ (ds ++ [z])) (bytes "Episodio ") = true := by
    unfold HasPrefix
    rw [List.isPrefixOf_iff_prefix]
    exact List.prefix_append _ _
  have hcons : bytes "Episodio " ++ (ds ++ [z])
      = 69 :: ([112, 105, 115, 111, 100, 105, 111, 32] ++ (ds ++ [z])) := by
    rw [bytes_episodio_sp]
    rfl
  have hcond : (HasPrefix (bytes "Episodio " ++ (ds ++ [z])) (bytes "Episodio ")
      && ((bytes "Episodio " ++ (ds ++ [z])).drop 9).head?.any isDigit) = true := by
    rw [hpre, hdrop, hhead]
    rfl
  have key := findEpisodeDigits_cons 69 ([112, 105, 115, 111, 100, 105, 111, 32] ++ (ds ++ [z]))
  rw [← hcons, if_pos hcond, hdrop, htw] at key
  exact key

theorem nextEpisode_label (cur : Nat) {name : Str} (h : wellNamed name = true) :
    TrimSpace (bytes "EPISODIO: " ++ name) = bytes "EPISODIO: " ++ name ∧
    nextEpisode cur (bytes "EPISODIO: " ++ name) = episodeNumber name := by
  obtain ⟨ds, z, hname, hdrop, hdig, hpos, hmax⟩ := wellNamed_elim h
  have hz : spaceByte z = false := spaceByte_of_isDigit (hdig z (by simp))
  constructor
  · rw [hname, bytes_label_sp, bytes_episodio_sp]
    have e : [69, 80, 73, 83, 79, 68, 73, 79, 58, 32]
          ++ ([69, 112, 105, 115, 111, 100, 105, 111, 32] ++ (ds ++ [z]))
        = 69 :: (([80, 73, 83, 79, 68, 73, 79, 58, 32]
          ++ [69, 112, 105, 115, 111, 100, 105, 111, 32] ++ ds) ++ [z]) := by simp
    rw [e]
    exact TrimSpace_cons_concat 69 z _ (by decide) hz
  · have hcut : CutPrefix (bytes "EPISODIO: " ++ name) (bytes "EPISODIO:")
        = some (32 :: name) := by
      rw [bytes_label_sp, bytes_label]
      simp [CutPrefix, HasPrefix, List.isPrefixOf]
    have htrim : TrimSpace (32 :: name) = name := by
      apply TrimSpace_space_cons
      · rw [hname, bytes_episodio_sp]
        exact NoSpaceHead_cons _ (by decide)
      · rw [hname, ← List.append_assoc]
        exact NoSpaceLast_concat _ hz
    have hfind : findEpisodeDigits name = some (ds ++ [z]) := by
      rw [hname]
      exact findEpisodeDigits_digits ds z hdig
    simp only [nextEpisode, hcut, htrim, hfind, Atoi, hmax, if_true, episodeNumber, hdrop]

theorem parseLine_label (st : ParseState) {name : Str} (h : wellNamed name = true) :
    parseLine st (bytes "EPISODIO: " ++ name)
      = { episodes := st.episodes, currentEpisode := episodeNumber name } := by
  obtain ⟨ht, hn⟩ := nextEpisode_label st.currentEpisode h
  have hpre : HasPrefix (bytes "EPISODIO: " ++ name) (bytes "Enlace:") = false := by
    rw [bytes_label_sp, bytes_enlace]
    simp [HasPrefix, List.isPrefixOf]
  unfold parseLine
  simp only [ht, hn, isMegaLine, hpre, Bool.and_false, Bool.false_and, Bool.false_eq_true,
    if_false]

theorem spaceRunesRev_length : ∀ p ∈ spaceRunes.map List.reverse, p.length ≤ 3 := by decide

theorem NoSpaceLast_append (x u : Str) (hu : NoSpaceLast u) (hlen : 3 ≤ u.length) :
    NoSpaceLast (x ++ u) := by
  unfold NoSpaceLast at *
  rw [List.find?_eq_none] at *
  intro p hp hpre
  apply hu p hp
  rw [List.reverse_append] at hpre
  rw [List.isPrefixOf_iff_prefix] at *
  refine List.prefix_of_prefix_length_le hpre (List.prefix_append _ _) ?_
  have := spaceRunesRev_length p hp
  rw [List.length_reverse]
  omega

theorem Contains_cons (b : Nat) (rest sub : Str) :
    Contains (b :: rest) sub = (sub.isPrefixOf (b :: rest) || Contains rest sub) := rfl

theorem Contains_cons_of_ne (b : Nat) (rest : Str) (h : b ≠ 109) :
    Contains (b :: rest) (bytes "mega.nz") = Contains rest (bytes "mega.nz") := by
  have hne : (109 == b) = false := by simpa using fun h' => h h'.symm
  rw [Contains_cons, bytes_mega]
  simp [List.isPrefixOf, hne]

theorem Contains_enlace (u : Str) :
    Contains (bytes "Enlace: " ++ u) (bytes "mega.nz") = Contains u (bytes "mega.nz") := by
  rw [bytes_enlace_sp]
  simp only [List.cons_append, List.nil_append]
  rw [Contains_cons_of_ne _ _ (by decide), Contains_cons_of_ne _ _ (by decide),
    Contains_cons_of_ne _ _ (by decide), Contains_cons_of_ne _ _ (by decide),
    Contains_cons_of_ne _ _ (by decide), Contains_cons_of_ne _ _ (by decide),
    Contains_cons_of_ne _ _ (by decide), Contains_cons_of_ne _ _ (by decide)]

theorem length_of_Contains_mega {u : Str} (h : Contains u (bytes "mega.nz") = true) :
    7 ≤ u.length := by
  rw [Contains_iff_isInfix] at h
  have := h.length_le
  rw [bytes_mega] at this
  simpa using this

theorem nextEpisode_enlace (cur : Nat) (s : Str) :
    nextEpisode cur (69 :: 110 :: s) = cur := by
  simp [nextEpisode, CutPrefix, HasPrefix, bytes_label, List.isPrefixOf]

theorem parseLine_link_other (st : ParseState) (u : Str)
    (hmega : Contains u (bytes "mega.nz") = false) :
    parseLine st (bytes "Enlace: " ++ u) = st := by
  have hc : Contains (TrimSpace (bytes "Enlace: " ++ u)) (bytes "mega.nz") = false := by
    apply Contains_TrimSpace_false
    rw [Contains_enlace, hmega]
  have hcons : bytes "Enlace: " ++ u = 69 :: 110 :: ([108, 97, 99, 101, 58, 32] ++ u) := by
    rw [bytes_enlace_sp]; rfl
  obtain ⟨s', hs'⟩ := TrimSpace_cons_cons 69 110 ([108, 97, 99, 101, 58, 32] ++ u)
    (by decide) (by decide)
  rw [← hcons] at hs'
  unfold parseLine
  simp only [isMegaLine, hc, Bool.false_and, Bool.false_eq_true, if_false]
  rw [hs', nextEpisode_enlace]

theorem parseLine_link_mega (st : ParseState) (u : Str)
    (hclean : TrimSpace u = u) (hmega : Contains u (bytes "mega.nz") = true) :
    parseLine st (bytes "Enlace: " ++ u)
      = if st.currentEpisode > 0 then
          { episodes := mapSet st.episodes st.currentEpisode u,
            currentEpisode := st.currentEpisode }
        else st := by
  have hlen := length_of_Contains_mega hmega
  have hH : NoSpaceHead u := hclean ▸ NoSpaceHead_TrimSpace u
  have hL : NoSpaceLast u := hclean ▸ NoSpaceLast_TrimSpace u
  have hcons : bytes "Enlace: " ++ u = 69 :: 110 :: ([108, 97, 99, 101, 58, 32] ++ u) := by
    rw [bytes_enlace_sp]; rfl
  have htrim : TrimSpace (bytes "Enlace: " ++ u) = bytes "Enlace: " ++ u := by
    apply TrimSpace_of_clean
    · rw [hcons]
      exact NoSpaceHead_cons _ (by decide)
    · exact NoSpaceLast_append _ _ hL (by omega)
  have hnext : nextEpisode st.currentEpisode (bytes "Enlace: " ++ u) = st.currentEpisode := by
    rw [hcons, nextEpisode_enlace]
  have hpre : HasPrefix (bytes "Enlace: " ++ u) (bytes "Enlace:") = true := by
    rw [bytes_enlace_sp, bytes_enlace]
    simp [HasPrefix, List.isPrefixOf]
  have hcut : TrimPrefix (bytes "Enlace: " ++ u) (bytes "Enlace:") = 32 :: u := by
    unfold TrimPrefix
    rw [hpre, if_pos rfl, bytes_enlace_sp, bytes_enlace]
    rfl
  unfold parseLine
  simp only [htrim, hnext, isMegaLine, Contains_enlace, hmega, hpre, Bool.true_and, hcut,
    TrimSpace_space_cons u hH hL, decide_eq_true_eq]

/-! ## The parser on the blocks of a report -/

theorem cleanDownload_elim {d : Download} (h : cleanDownload d = true) :
    10 ∉ d.ProviderName ∧ 10 ∉ d.DownloadURL ∧
    (Contains d.DownloadURL (bytes "mega.nz") = true → TrimSpace d.DownloadURL = d.DownloadURL) := by
  simp only [cleanDownload, Bool.and_eq_true, Bool.not_eq_true', Bool.or_eq_true,
    beq_iff_eq, List.contains_eq_any_beq, List.any_eq_false, bne_iff_ne] at h
  obtain ⟨⟨h1, h2⟩, h3⟩ := h
  refine ⟨fun hm => ?_, fun hm => ?_, fun hc => ?_⟩
  · exact absurd (h1 10 hm) (by simp)
  · exact absurd (h2 10 hm) (by simp)
  · rcases h3 with h3 | h3
    · rw [hc] at h3; cases h3
    · exact h3

theorem foldl_parseLine_download (m : List (Nat × Str)) (n : Nat) (hn : 0 < n) (d : Download)
    (hd : cleanDownload d = true) :
    [bytes "Proveedor: " ++ d.ProviderName, bytes "Enlace: " ++ d.DownloadURL, []].foldl
        parseLine { episodes := m, currentEpisode := n }
      = { episodes := storeLinks m n (megaURLs [d]), currentEpisode := n } := by
  obtain ⟨_, _, hclean⟩ := cleanDownload_elim hd
  have hP : ∀ st : ParseState, parseLine st (bytes "Proveedor: " ++ d.ProviderName) = st := by
    intro st
    rw [bytes_proveedor]
    exact parseLine_of_head st 80 _ (by decide) (by decide)
  simp only [List.foldl_cons, List.foldl_nil, hP, parseLine_nil]
  by_cases hm : Contains d.DownloadURL (bytes "mega.nz") = true
  · rw [parseLine_link_mega _ _ (hclean hm) hm]
    simp [hn, storeLinks, megaURLs, hm]
  · have hm' : Contains d.DownloadURL (bytes "mega.nz") = false := by simpa using hm
    rw [parseLine_link_other _ _ hm']
    simp [storeLinks, megaURLs, hm']

theorem storeLinks_append (m : List (Nat × Str)) (n : Nat) (us vs : List Str) :
    storeLinks m n (us ++ vs) = storeLinks (storeLinks m n us) n vs := by
  simp [storeLinks, List.foldl_append]

theorem megaURLs_cons (d : Download) (ds : List Download) :
    megaURLs (d :: ds) = megaURLs [d] ++ megaURLs ds := by
  simp only [megaURLs, List.map_cons, List.map_nil]
  rw [← List.filter_append]
  rfl

theorem foldl_parseLine_downloads (n : Nat) (hn : 0 < n) (ds : List Download)
    (hds : ∀ d ∈ ds, cleanDownload d = true) (m : List (Nat × Str)) :
    (ds.flatMap (fun d =>
        [bytes "Proveedor: " ++ d.ProviderName, bytes "Enlace: " ++ d.DownloadURL, []])).foldl
        parseLine { episodes := m, currentEpisode := n }
      = { episodes := storeLinks m n (megaURLs ds), currentEpisode := n } := by
  induction ds generalizing m with
  | nil => rfl
  | cons d ds ih =>
    rw [List.flatMap_cons, List.foldl_append,
      foldl_parseLine_download m n hn d (hds d (List.mem_cons_self _ _)),
      ih (fun d' hd' => hds d' (List.mem_cons_of_mem _ hd')), megaURLs_cons d ds,
      storeLinks_append]

theorem episodeNumber_pos {name : Str} (h : wellNamed name = true) : 0 < episodeNumber name := by
  obtain ⟨ds, z, _, hdrop, _, hpos, _⟩ := wellNamed_elim h
  unfold episodeNumber
  rw [hdrop]
  exact hpos

theorem foldl_parseLine_block (st : ParseState) (name : Str) (ds : List Download)
    (hname : wellNamed name = true) (hds : ∀ d ∈ ds, cleanDownload d = true) :
    (blockLines name ds).foldl parseLine st
      = { episodes := storeLinks st.episodes (episodeNumber name) (megaURLs ds),
          currentEpisode := episodeNumber name } := by
  unfold blockLines
  rw [List.foldl_append, List.foldl_append]
  have hdash : ∀ st : ParseState,
      parseLine st (bytes "----------------------------------------") = st := by
    intro st
    rw [bytes_dashes]
    exact parseLine_of_head st 45 _ (by decide) (by decide)
  simp only [List.foldl_cons, List.foldl_nil, parseLine_label st hname, hdash, parseLine_nil]
  exact foldl_parseLine_downloads _ (episodeNumber_pos hname) ds hds _

theorem mapGet_storeLinks (m : List (Nat × Str)) (n k : Nat) (us : List Str) :
    mapGet (storeLinks m n us) k
      = if k = n then (us.getLast?).or (mapGet m k) else mapGet m k := by
  induction us generalizing m with
  | nil => simp [storeLinks]
  | cons u us ih =>
    have e : storeLinks m n (u :: us) = storeLinks (mapSet m n u) n us := rfl
    rw [e, ih, mapGet_mapSet]
    by_cases hk : k = n
    · simp only [hk, if_true]
      rw [← List.singleton_append, List.getLast?_append]
      cases us.getLast? <;> simp
    · simp only [hk, if_false]

theorem mapGet_foldl_blocks (shown : List (Str × List Download))
    (h : ∀ p ∈ shown, wellNamed p.1 = true ∧ ∀ d ∈ p.2, cleanDownload d = true)
    (st : ParseState) (k : Nat) :
    mapGet ((shown.flatMap (fun p => blockLines p.1 p.2)).foldl parseLine st).episodes k
      = ((shown.flatMap (fun p =>
            if episodeNumber p.1 = k then megaURLs p.2 else [])).getLast?).or
          (mapGet st.episodes k) := by
  induction shown generalizing st with
  | nil => simp
  | cons p ps ih =>
    have hp := h p (List.mem_cons_self _ _)
    rw [List.flatMap_cons, List.foldl_append, foldl_parseLine_block st p.1 p.2 hp.1 hp.2,
      ih (fun q hq => h q (List.mem_cons_of_mem _ hq)), List.flatMap_cons,
      List.getLast?_append, mapGet_storeLinks]
    by_cases hk : episodeNumber p.1 = k
    · rw [if_pos hk, if_pos hk.symm]
      cases (ps.flatMap (fun p => if episodeNumber p.1 = k then megaURLs p.2 else [])).getLast?
        <;> simp
    · rw [if_neg hk, if_neg (fun hk' => hk hk'.symm)]
      cases (ps.flatMap (fun p => if episodeNumber p.1 = k then megaURLs p.2 else [])).getLast?
        <;> simp

/-! ## The parser on a whole report -/

theorem writeHeader_eq (animeName now : Str) :
    writeHeader animeName now
      = unlines [bytes "ENLACES DE DESCARGA - " ++ animeName, bytes "Generado el: " ++ now,
          61 :: List.replicate 39 61, []] := by
  simp [writeHeader, unlines, bytes_lf, bytes_equals_lf2]

theorem foldl_parseLine_header (animeName now : Str) (st : ParseState) :
    [bytes "ENLACES DE DESCARGA - " ++ animeName, bytes "Generado el: " ++ now,
        61 :: List.replicate 39 61, []].foldl parseLine st = st := by
  have h1 : parseLine st (bytes "ENLACES DE DESCARGA - " ++ animeName) = st := by
    rw [bytes_enlaces]
    exact parseLine_of_head2 st 69 78 _ (by decide) (by decide) (by decide) (by decide)
  have h2 : parseLine st (bytes "Generado el: " ++ now) = st := by
    rw [bytes_generado]
    exact parseLine_of_head st 71 _ (by decide) (by decide)
  have h3 : parseLine st (61 :: List.replicate 39 61) = st :=
    parseLine_of_head st 61 _ (by decide) (by decide)
  simp only [List.foldl_cons, List.foldl_nil, h1, h2, h3, parseLine_nil]

theorem blockLines_noLF (name : Str) (ds : List Download) (hname : wellNamed name = true)
    (hds : ∀ d ∈ ds, cleanDownload d = true) : ∀ l ∈ blockLines name ds, 10 ∉ l := by
  obtain ⟨dg, z, hn, _, hdig, _, _⟩ := wellNamed_elim hname
  intro l hl
  simp only [blockLines, List.mem_append, List.mem_cons, List.mem_singleton, List.mem_flatMap,
    List.not_mem_nil, or_false] at hl
  rcases hl with (hl | hl) | hl
  · rcases hl with hl | hl
    · subst hl
      rw [hn, List.mem_append, List.mem_append]
      rintro (h | h | h)
      · revert h; decide
      · revert h; decide
      · exact lf_of_isDigit (hdig 10 h) rfl
    · subst hl
      decide
  · obtain ⟨d, hd, hl⟩ := hl
    obtain ⟨hp, hu, _⟩ := cleanDownload_elim (hds d hd)
    rcases hl with hl | hl | hl
    · subst hl
      rw [List.mem_append]
      rintro (h | h)
      · revert h; decide
      · exact hp h
    · subst hl
      rw [List.mem_append]
      rintro (h | h)
      · revert h; decide
      · exact hu h
    · subst hl
      simp
  · subst hl
    simp

theorem eq_nil_of_mapGet_none (m : List (Nat × Str)) (h : ∀ k, mapGet m k = none) : m = [] := by
  cases m with
  | nil => rfl
  | cons p m =>
    obtain ⟨k, v⟩ := p
    have := h k
    simp [mapGet, List.lookup] at this

theorem mapGet_parse_report (animeName now : Str) (episodes : List Episode)
    (allDownloads : List (Str × List Download))
    (hname : 10 ∉ animeName) (hnow : 10 ∉ now)
    (hshown : ∀ p ∈ shownEpisodes episodes allDownloads,
      wellNamed p.1 = true ∧ ∀ d ∈ p.2, cleanDownload d = true) (k : Nat) :
    mapGet (ParseEpisodeDocument (reportText animeName now episodes allDownloads)) k
      = (writtenLinks episodes allDownloads k).getLast? := by
  have hlines : ∀ l ∈ [bytes "ENLACES DE DESCARGA - " ++ animeName, bytes "Generado el: " ++ now,
          61 :: List.replicate 39 61, []]
        ++ (shownEpisodes episodes allDownloads).flatMap (fun p => blockLines p.1 p.2),
      10 ∉ l := by
    intro l hl
    rw [List.mem_append] at hl
    rcases hl with hl | hl
    · simp only [List.mem_cons, List.mem_singleton, List.not_mem_nil, or_false] at hl
      rcases hl with hl | hl | hl | hl
      · subst hl
        rw [List.mem_append]
        rintro (h | h)
        · revert h; decide
        · exact hname h
      · subst hl
        rw [List.mem_append]
        rintro (h | h)
        · revert h; decide
        · exact hnow h
      · subst hl
        decide
      · subst hl
        simp
    · rw [List.mem_flatMap] at hl
      obtain ⟨p, hp, hl⟩ := hl
      exact blockLines_noLF p.1 p.2 (hshown p hp).1 (hshown p hp).2 l hl
  unfold ParseEpisodeDocument
  rw [reportText_eq, writeHeader_eq, ← unlines_append, SplitLines_unlines _ hlines,
    List.foldl_append, List.foldl_append, foldl_parseLine_header]
  simp only [List.foldl_cons, List.foldl_nil, parseLine_nil]
  rw [mapGet_foldl_blocks _ hshown]
  simp [writtenLinks, mapGet]

/-! ## strconv.Atoi and the selection -/

theorem isDigit_not_sign {c : Nat} (h : isDigit c = true) : c ≠ 45 ∧ c ≠ 43 := by
  simp only [isDigit, Bool.and_eq_true, decide_eq_true_eq] at h
  omega

theorem digits_test {ds : Str} (hne : ds ≠ []) (hdig : ∀ d ∈ ds, isDigit d = true) :
    (ds.isEmpty || !ds.all isDigit) = false := by
  have h1 : ds.isEmpty = false := by
    cases ds with
    | nil => exact absurd rfl hne
    | cons d ds => rfl
  have h2 : ds.all isDigit = true := List.all_eq_true.mpr hdig
  rw [h1, h2]
  rfl

theorem digits_test_inv {ds : Str} (h : (ds.isEmpty || !ds.all isDigit) = false) :
    ds ≠ [] ∧ ∀ d ∈ ds, isDigit d = true := by
  rw [Bool.or_eq_false_iff] at h
  obtain ⟨h1, h2⟩ := h
  constructor
  · intro h0
    rw [h0] at h1
    cases h1
  · have h3 : ds.all isDigit = true := by simpa using h2
    exact List.all_eq_true.mp h3

theorem AtoiInt_minus (rest : Str) :
    AtoiInt (45 :: rest)
      = if (rest.isEmpty || !rest.all isDigit) = true then none
        else if digitsVal rest ≤ intMax + 1 then some (-(digitsVal rest : Int)) else none := by
  simp [AtoiInt]

theorem AtoiInt_plus (rest : Str) :
    AtoiInt (43 :: rest)
      = if (rest.isEmpty || !rest.all isDigit) = true then none
        else if digitsVal rest ≤ intMax then some (digitsVal rest : Int) else none := by
  simp [AtoiInt]

theorem AtoiInt_unsigned (c : Nat) (rest : Str) (h45 : c ≠ 45) (h43 : c ≠ 43) :
    AtoiInt (c :: rest)
      = if ((c :: rest).isEmpty || !(c :: rest).all isDigit) = true then none
        else if digitsVal (c :: rest) ≤ intMax then some (digitsVal (c :: rest) : Int)
        else none := by
  simp [AtoiInt, h45, h43]

theorem AtoiInt_of_digits (ds : Str) (hne : ds ≠ []) (hdig : ∀ d ∈ ds, isDigit d = true)
    (hv : digitsVal ds ≤ intMax) : AtoiInt ds = some (digitsVal ds : Int) := by
  cases ds with
  | nil => exact absurd rfl hne
  | cons c rest =>
    have hc := isDigit_not_sign (hdig c (List.mem_cons_self _ _))
    rw [AtoiInt_unsigned c rest hc.1 hc.2, digits_test hne hdig]
    simp [hv]

theorem AtoiInt_of_plus (ds : Str) (hne : ds ≠ []) (hdig : ∀ d ∈ ds, isDigit d = true)
    (hv : digitsVal ds ≤ intMax) : AtoiInt (43 :: ds) = some (digitsVal ds : Int) := by
  rw [AtoiInt_plus, digits_test hne hdig]
  simp [hv]

theorem AtoiInt_of_minus (ds : Str) (hne : ds ≠ []) (hdig : ∀ d ∈ ds, isDigit d = true)
    (hv : digitsVal ds ≤ intMax + 1) : AtoiInt (45 :: ds) = some (-(digitsVal ds : Int)) := by
  rw [AtoiInt_minus, digits_test hne hdig]
  simp [hv]

theorem AtoiInt_some_elim (s : Str) (k : Int) (h : AtoiInt s = some k) :
    ∃ ds : Str, ds ≠ [] ∧ (∀ d ∈ ds, isDigit d = true) ∧
      (((s = ds ∨ s = 43 :: ds) ∧ digitsVal ds ≤ intMax ∧ k = (digitsVal ds : Int)) ∨
       (s = 45 :: ds ∧ digitsVal ds ≤ intMax + 1 ∧ k = -(digitsVal ds : Int))) := by
  cases s with
  | nil => simp [AtoiInt] at h
  | cons c rest =>
    by_cases h45 : c = 45
    · subst h45
      rw [AtoiInt_minus] at h
      cases ht : (rest.isEmpty || !rest.all isDigit) with
      | true => rw [ht] at h; simp at h
      | false =>
        rw [ht] at h
        obtain ⟨hne, hdig⟩ := digits_test_inv ht
        by_cases hv : digitsVal rest ≤ intMax + 1
        · rw [if_neg (by simp), if_pos hv] at h
          exact ⟨rest, hne, hdig, Or.inr ⟨rfl, hv, (Option.some.inj h).symm⟩⟩
        · rw [if_neg (by simp), if_neg hv] at h
          cases h
    · by_cases h43 : c = 43
      · subst h43
        rw [AtoiInt_plus] at h
        cases ht : (rest.isEmpty || !rest.all isDigit) with
        | true => rw [ht] at h; simp at h
        | false =>
          rw [ht] at h
          obtain ⟨hne, hdig⟩ := digits_test_inv ht
          by_cases hv : digitsVal rest ≤ intMax
          · rw [if_neg (by simp), if_pos hv] at h
            exact ⟨rest, hne, hdig, Or.inl ⟨Or.inr rfl, hv, (Option.some.inj h).symm⟩⟩
          · rw [if_neg (by simp), if_neg hv] at h
            cases h
      · rw [AtoiInt_unsigned c rest h45 h43] at h
        cases ht : ((c :: rest).isEmpty || !(c :: rest).all isDigit) with
        | true => rw [ht] at h; simp at h
        | false =>
          rw [ht] at h
          obtain ⟨hne, hdig⟩ := digits_test_inv ht
          by_cases hv : digitsVal (c :: rest) ≤ intMax
          · rw [if_neg (by simp), if_pos hv] at h
            exact ⟨c :: rest, hne, hdig, Or.inl ⟨Or.inl rfl, hv, (Option.some.inj h).symm⟩⟩
          · rw [if_neg (by simp), if_neg hv] at h
            cases h

theorem AtoiInt_eq_some_iff (s : Str) (k : Int) :
    AtoiInt s = some k ↔
      ∃ ds : Str, ds ≠ [] ∧ (∀ d ∈ ds, isDigit d = true) ∧
        (((s = ds ∨ s = 43 :: ds) ∧ digitsVal ds ≤ intMax ∧ k = (digitsVal ds : Int)) ∨
         (s = 45 :: ds ∧ digitsVal ds ≤ intMax + 1 ∧ k = -(digitsVal ds : Int))) := by
  constructor
  · exact AtoiInt_some_elim s k
  · rintro ⟨ds, hne, hdig, h⟩
    rcases h with ⟨h | h, hv, hk⟩ | ⟨h, hv, hk⟩
    · rw [h, hk]; exact AtoiInt_of_digits ds hne hdig hv
    · rw [h, hk]; exact AtoiInt_of_plus ds hne hdig hv
    · rw [h, hk]; exact AtoiInt_of_minus ds hne hdig hv

/-- On a string of digits `strconv.Atoi` is the function the parser's model uses. -/
theorem AtoiInt_digits (ds : Str) (hne : ds ≠ []) (hdig : ∀ d ∈ ds, isDigit d = true) :
    AtoiInt ds = (Atoi ds).map Int.ofNat := by
  unfold Atoi
  by_cases hv : digitsVal ds ≤ intMax
  · rw [if_pos hv]
    exact (AtoiInt_eq_some_iff ds _).mpr ⟨ds, hne, hdig, Or.inl ⟨Or.inl rfl, hv, rfl⟩⟩
  · rw [if_neg hv]
    cases h : AtoiInt ds with
    | none => rfl
    | some k =>
      obtain ⟨ds', hne', hdig', h'⟩ := (AtoiInt_eq_some_iff ds k).mp h
      rcases h' with ⟨h' | h', hv', _⟩ | ⟨h', _⟩
      · subst h'
        exact absurd hv' hv
      · subst h'
        exact absurd rfl (isDigit_not_sign (hdig 43 (List.mem_cons_self _ _))).2
      · subst h'
        exact absurd rfl (isDigit_not_sign (hdig 45 (List.mem_cons_self _ _))).1

theorem indexInt_of_range {α : Type} (l : List α) (k : Int) (h1 : 1 ≤ k)
    (h2 : k ≤ (l.length : Int)) :
    ∃ a, l[(k - 1).toNat]? = some a ∧ indexInt l (k - 1) = some a := by
  have hlt : (k - 1).toNat < l.length := by omega
  refine ⟨l[(k - 1).toNat], List.getElem?_eq_getElem hlt, ?_⟩
  unfold indexInt
  rw [if_neg (by omega)]
  exact List.getElem?_eq_getElem hlt

theorem selectAnime_of_range (animesList : List Anime) (input : Str) (k : Int)
    (hk : AtoiInt (TrimSpace input) = some k) (h1 : 1 ≤ k)
    (h2 : k ≤ (animesList.length : Int)) :
    ∃ a, animesList[(k - 1).toNat]? = some a ∧ selectAnime animesList input = .chosen a := by
  obtain ⟨a, ha, hidx⟩ := indexInt_of_range animesList k h1 h2
  refine ⟨a, ha, ?_⟩
  have hcond : ¬ (k < 1 ∨ k > (animesList.length : Int)) := by omega
  simp only [selectAnime, hk, hcond, if_false, hidx]

theorem selectAnime_refused (animesList : List Anime) (input : Str)
    (h : ¬ ∃ k : Int, AtoiInt (TrimSpace input) = some k ∧ 1 ≤ k
      ∧ k ≤ (animesList.length : Int)) :
    ∃ err, selectAnime animesList input = .refused err := by
  cases hk : AtoiInt (TrimSpace input) with
  | none => exact ⟨errNotNumber, by simp only [selectAnime, hk]⟩
  | some k =>
    have hcond : k < 1 ∨ k > (animesList.length : Int) := by
      by_contra hc
      exact h ⟨k, hk, by omega, by omega⟩
    exact ⟨errInvalidOption, by simp only [selectAnime, hk, hcond, if_true]⟩

theorem selectAnime_ne_outOfRange (animesList : List Anime) (input : Str) :
    selectAnime animesList input ≠ .outOfRange := by
  by_cases h : ∃ k : Int, AtoiInt (TrimSpace input) = some k ∧ 1 ≤ k
      ∧ k ≤ (animesList.length : Int)
  · obtain ⟨k, hk, h1, h2⟩ := h
    obtain ⟨a, _, ha⟩ := selectAnime_of_range animesList input k hk h1 h2
    rw [ha]
    exact fun h => Selection.noConfusion h
  · obtain ⟨err, herr⟩ := selectAnime_refused animesList input h
    rw [herr]
    exact fun h => Selection.noConfusion h

/-! ## Label lines without a number, and numbers beyond 12 -/

theorem processAnimes_of_refused (animesList : List Anime) (input err : Str)
    (h : selectAnime animesList input = .refused err)
    (episodesOf : Str → Str → Except Str (List Episode))
    (fetch : Str → Except Str (List Download)) (createErr : Option Str) (now : Str) :
    processAnimes animesList (.ok input) episodesOf fetch createErr now
      = { outcome := some (.error err), requested := [] } := by
  simp only [processAnimes, h]

theorem enlace_of_label {t : Str} (h : HasPrefix t (bytes "EPISODIO:") = true) :
    HasPrefix t (bytes "Enlace:") = false := by
  unfold HasPrefix at h
  rw [List.isPrefixOf_iff_prefix] at h
  obtain ⟨r, hr⟩ := h
  rw [← hr, bytes_label, bytes_enlace]
  simp [HasPrefix, List.isPrefixOf]

theorem label_of_isUnnumberedLabel {l : Str} (h : isUnnumberedLabel l = true) :
    HasPrefix (TrimSpace l) (bytes "EPISODIO:") = true := by
  unfold isUnnumberedLabel CutPrefix at h
  by_cases hp : HasPrefix (TrimSpace l) (bytes "EPISODIO:") = true
  · exact hp
  · rw [if_neg hp] at h
    cases h

theorem nextEpisode_of_isUnnumberedLabel (cur : Nat) {l : Str}
    (h : isUnnumberedLabel l = true) : nextEpisode cur (TrimSpace l) = cur := by
  unfold isUnnumberedLabel at h
  unfold nextEpisode
  cases hc : CutPrefix (TrimSpace l) (bytes "EPISODIO:") with
  | none => rfl
  | some after =>
    rw [hc] at h
    dsimp only at h ⊢
    cases hf : findEpisodeDigits (TrimSpace after) with
    | none => rfl
    | some ds =>
      rw [hf] at h
      dsimp only at h ⊢
      have hv : ¬ digitsVal ds ≤ intMax := by
        have := of_decide_eq_true h
        omega
      simp only [Atoi, hv, if_false]

theorem nextEpisode_of_no_label (cur : Nat) {t : Str}
    (h : HasPrefix t (bytes "EPISODIO:") = false) : nextEpisode cur t = cur := by
  simp [nextEpisode, CutPrefix, h]

theorem parseLine_of_isUnnumberedLabel (st : ParseState) {l : Str}
    (h : isUnnumberedLabel l = true) : parseLine st l = st := by
  have hn := nextEpisode_of_isUnnumberedLabel st.currentEpisode h
  have he := enlace_of_label (label_of_isUnnumberedLabel h)
  unfold parseLine
  simp [hn, isMegaLine, he]

theorem parseLine_of_no_label (m : List (Nat × Str)) (cur : Nat) {l : Str}
    (h : HasPrefix (TrimSpace l) (bytes "EPISODIO:") = false) :
    parseLine { episodes := m, currentEpisode := cur } l
      = { episodes := if isLinkLine l = true ∧ 0 < cur then mapSet m cur (linkURL l) else m,
          currentEpisode := cur } := by
  have hn : nextEpisode cur (TrimSpace l) = cur := nextEpisode_of_no_label cur h
  unfold parseLine
  simp only [hn]
  by_cases hl : isLinkLine l = true ∧ 0 < cur
  · have hm : isMegaLine (TrimSpace l) cur = true := by
      have h1 := hl.1
      unfold isLinkLine at h1
      simp only [isMegaLine, h1, Bool.true_and, decide_eq_true_eq]
      exact hl.2
    rw [if_pos hm, if_pos hl]
    rfl
  · have hm : ¬ isMegaLine (TrimSpace l) cur = true := by
      intro hm
      apply hl
      simp only [isMegaLine, Bool.and_eq_true, decide_eq_true_eq] at hm
      refine ⟨?_, hm.2⟩
      unfold isLinkLine
      rw [hm.1.1, hm.1.2]
      rfl
    rw [if_neg hm, if_neg hl]

theorem isLinkLine_of_label {l : Str}
    (h : HasPrefix (TrimSpace l) (bytes "EPISODIO:") = true) : isLinkLine l = false := by
  unfold isLinkLine
  rw [enlace_of_label h, Bool.and_false]

theorem parseLine_keep (m : List (Nat × Str)) (cur : Nat) {l : Str}
    (h : HasPrefix (TrimSpace l) (bytes "EPISODIO:") = false ∨ isUnnumberedLabel l = true) :
    parseLine { episodes := m, currentEpisode := cur } l
      = { episodes := if isLinkLine l = true ∧ 0 < cur then mapSet m cur (linkURL l) else m,
          currentEpisode := cur } := by
  rcases h with h | h
  · exact parseLine_of_no_label m cur h
  · rw [parseLine_of_isUnnumberedLabel _ h,
      isLinkLine_of_label (label_of_isUnnumberedLabel h)]
    simp

theorem foldl_parseLine_keep (rest : List Str)
    (h : ∀ l ∈ rest, HasPrefix (TrimSpace l) (bytes "EPISODIO:") = false
      ∨ isUnnumberedLabel l = true)
    (m : List (Nat × Str)) (cur : Nat) :
    (rest.foldl parseLine { episodes := m, currentEpisode := cur }).currentEpisode = cur ∧
    ∀ k, mapGet (rest.foldl parseLine { episodes := m, currentEpisode := cur }).episodes k
      = if k = cur ∧ 0 < cur then
          (((rest.filter isLinkLine).getLast?).map linkURL).or (mapGet m k)
        else mapGet m k := by
  induction rest generalizing m with
  | nil => exact ⟨rfl, fun k => by simp⟩
  | cons l ls ih =>
    rw [List.foldl_cons, parseLine_keep m cur (h l (List.mem_cons_self _ _))]
    obtain ⟨ih1, ih2⟩ := ih (fun l' hl' => h l' (List.mem_cons_of_mem _ hl'))
      (if isLinkLine l = true ∧ 0 < cur then mapSet m cur (linkURL l) else m)
    refine ⟨ih1, fun k => ?_⟩
    rw [ih2 k, List.filter_cons]
    by_cases hk : k = cur ∧ 0 < cur
    · obtain ⟨hkc, hpos⟩ := hk
      subst hkc
      simp only [true_and, hpos, and_true, if_true]
      by_cases hl : isLinkLine l = true
      · simp only [hl, if_true, mapGet_mapSet]
        rw [← List.singleton_append, List.getLast?_append]
        cases (ls.filter isLinkLine).getLast? <;> simp
      · simp only [hl, if_false, Bool.false_eq_true]
    · rw [if_neg hk, if_neg hk]
      by_cases hl : isLinkLine l = true ∧ 0 < cur
      · rw [if_pos hl, mapGet_mapSet]
        have hne : k ≠ cur := fun hkc => hk ⟨hkc, hl.2⟩
        rw [if_neg hne]
      · rw [if_neg hl]

theorem parseLine_episodes_of_zero (st : ParseState) (l : Str)
    (h : nextEpisode st.currentEpisode (TrimSpace l) = 0) :
    (parseLine st l).episodes = st.episodes := by
  unfold parseLine
  simp [h, isMegaLine]

theorem findEpisodeDigits_none_of_not_Contains (s : Str)
    (h : Contains s (bytes "Episodio ") = false) : findEpisodeDigits s = none := by
  induction s with
  | nil => rfl
  | cons b rest ih =>
    rw [Contains_cons, Bool.or_eq_false_iff] at h
    rw [findEpisodeDigits_cons]
    have hp : HasPrefix (b :: rest) (bytes "Episodio ") = false := h.1
    rw [hp, Bool.false_and, if_neg (by simp)]
    exact ih h.2

theorem mem_of_lookup {ν : Type} (m : List (Nat × ν)) (k : Nat) (v : ν)
    (h : m.lookup k = some v) : (k, v) ∈ m := by
  rw [List.lookup_eq_some_iff] at h
  obtain ⟨l1, l2, hl, _⟩ := h
  rw [hl]
  simp

theorem CreateMetalinkFromText_no_files (text title baseName : Str)
    (hne : ParseEpisodeDocument text ≠ [])
    (hbig : ∀ p ∈ ParseEpisodeDocument text, 12 < p.1) :
    CreateMetalinkFromText text title baseName
      = .ok { Title := title, Description := bytes "Serie completa de anime",
              Category := bytes "Anime", Files := [] } := by
  rw [CreateMetalinkFromText_ok _ _ _ hne]
  have hnil : (List.range' 1 12).filterMap (fun n =>
      (mapGet (ParseEpisodeDocument text) n).map (megaEntry title baseName n)) = [] := by
    rw [List.filterMap_eq_nil_iff]
    intro n hn
    rw [List.mem_range'_1] at hn
    cases hl : mapGet (ParseEpisodeDocument text) n with
    | none => rfl
    | some v =>
      have := hbig (n, v) (mem_of_lookup _ n v hl)
      simp only at this
      omega
  rw [hnil]

theorem processAnimes_no_panic (animesList : List Anime) (readLine : Except Str Str)
    (episodesOf : Str → Str → Except Str (List Episode))
    (fetch : Str → Except Str (List Download)) (createErr : Option Str) (now : Str) :
    (processAnimes animesList readLine episodesOf fetch createErr now).outcome ≠ none := by
  cases readLine with
  | error err => simp [processAnimes]
  | ok input =>
    cases hs : selectAnime animesList input with
    | outOfRange => exact absurd hs (selectAnime_ne_outOfRange animesList input)
    | refused err => simp [processAnimes, hs]
    | chosen a =>
      cases he : episodesOf a.Name a.Link with
      | error err => simp [processAnimes, hs, he]
      | ok eps =>
        by_cases hl : eps.length = 0
        · simp [processAnimes, hs, he, hl]
        · simp [processAnimes, hs, he, hl]

/-- The selection on a list of three: ` 2` and `+3` choose, `0`, `4`, `-1` are out of
range, `2a`, the empty line and a number of twenty digits are no numbers. -/
theorem selectAnime_examples :
    selectAnime [⟨bytes "A", bytes "/a"⟩, ⟨bytes "B", bytes "/b"⟩, ⟨bytes "C", bytes "/c"⟩]
        (bytes " 2\n") = .chosen ⟨bytes "B", bytes "/b"⟩ ∧
    selectAnime [⟨bytes "A", bytes "/a"⟩, ⟨bytes "B", bytes "/b"⟩, ⟨bytes "C", bytes "/c"⟩]
        (bytes "+3\r\n") = .chosen ⟨bytes "C", bytes "/c"⟩ ∧
    selectAnime [⟨bytes "A", bytes "/a"⟩, ⟨bytes "B", bytes "/b"⟩, ⟨bytes "C", bytes "/c"⟩]
        (bytes "0\n") = .refused errInvalidOption ∧
    selectAnime [⟨bytes "A", bytes "/a"⟩, ⟨bytes "B", bytes "/b"⟩, ⟨bytes "C", bytes "/c"⟩]
        (bytes "4\n") = .refused errInvalidOption ∧
    selectAnime [⟨bytes "A", bytes "/a"⟩, ⟨bytes "B", bytes "/b"⟩, ⟨bytes "C", bytes "/c"⟩]
        (bytes "-1\n") = .refused errInvalidOption ∧
    selectAnime [⟨bytes "A", bytes "/a"⟩, ⟨bytes "B", bytes "/b"⟩, ⟨bytes "C", bytes "/c"⟩]
        (bytes "2a\n") = .refused errNotNumber ∧
    selectAnime [⟨bytes "A", bytes "/a"⟩, ⟨bytes "B", bytes "/b"⟩, ⟨bytes "C", bytes "/c"⟩]
        (bytes "\n") = .refused errNotNumber ∧
    selectAnime [⟨bytes "A", bytes "/a"⟩, ⟨bytes "B", bytes "/b"⟩, ⟨bytes "C", bytes "/c"⟩]
        (bytes "99999999999999999999\n") = .refused errNotNumber := by
  decide

/-! ## Filename sanitization: the claims -/

/-- C5, counterexample: a name of 99 letters `a`, a tab and a `b` is cut after
the tab; sanitizing the result again removes that tab, so the second pass
changes the name. -/
theorem sanitizeFilename_not_idempotent :
    sanitizeFilename (List.replicate 99 97 ++ [9, 98]) = List.replicate 99 97 ++ [9] ∧
    sanitizeFilename (sanitizeFilename (List.replicate 99 97 ++ [9, 98]))
      = List.replicate 99 97 ∧
    sanitizeFilename (sanitizeFilename (List.replicate 99 97 ++ [9, 98]))
      ≠ sanitizeFilename (List.replicate 99 97 ++ [9, 98]) := by
  decide

/-- C5, amended: sanitizing a sanitized name does nothing but trim the white
space that the cut at 100 bytes may have left at its end; it returns the same
name whenever the trimmed input is at most 100 bytes long, so that nothing was
cut. -/
theorem sanitizeFilename_idempotent_uncut (s : Str) :
    sanitizeFilename (sanitizeFilename s) = TrimSpace (sanitizeFilename s) ∧
    ((TrimSpace s).length ≤ 100 →
      sanitizeFilename (sanitizeFilename s) = sanitizeFilename s) :=
  ⟨sanitizeFilename_twice_eq s, sanitizeFilename_fixed_of_short s⟩

/-- C5, witness: the amended statement at the name ` My: Anime `. -/
theorem sanitizeFilename_idempotent_uncut_witness :
    (TrimSpace (bytes " My: Anime ")).length ≤ 100 ∧
    sanitizeFilename (sanitizeFilename (bytes " My: Anime "))
      = sanitizeFilename (bytes " My: Anime ") :=
  ⟨by decide, (sanitizeFilename_idempotent_uncut (bytes " My: Anime ")).2 (by decide)⟩

/-- C6, counterexample: the colon of `Attack on Titan: Final Season` is not
stripped, so the result is not `Attack_on_Titan_Final_Season`. -/
theorem sanitizeFilename_attack_on_titan_ne :
    sanitizeFilename (bytes "Attack on Titan: Final Season")
      ≠ bytes "Attack_on_Titan_Final_Season" := by
  decide

/-- C6, amended: `sanitizeFilename` applied to `Attack on Titan: Final Season`
yields `Attack_on_Titan__Final_Season`: the colon and the space after it each
become an underscore. -/
theorem sanitizeFilename_attack_on_titan :
    sanitizeFilename (bytes "Attack on Titan: Final Season")
      = bytes "Attack_on_Titan__Final_Season" := by
  decide

/-- C7: the result of `sanitizeFilename` has at most 100 bytes; none of them is
one of the nine characters less-than (60), greater-than (62), colon (58), double
quote (34), slash (47), backslash (92), vertical bar (124), question mark (63),
asterisk (42), nor a space (32); and the result is the trimmed input with each
of these ten bytes replaced by an underscore (95), cut at 100 bytes.  The ten
numbers are the codes of those characters, and a name made of a letter, the ten
characters and a letter becomes the two letters around ten underscores. -/
theorem sanitizeFilename_shape (s : Str) :
    (sanitizeFilename s).length ≤ 100 ∧
    (∀ b ∈ sanitizeFilename s,
      b ≠ 60 ∧ b ≠ 62 ∧ b ≠ 58 ∧ b ≠ 34 ∧ b ≠ 47 ∧ b ≠ 92 ∧ b ≠ 124 ∧ b ≠ 63 ∧ b ≠ 42
        ∧ b ≠ 32) ∧
    sanitizeFilename s
      = ((TrimSpace s).map (fun b =>
          if b ∈ [60, 62, 58, 34, 47, 92, 124, 63, 42, 32] then 95 else b)).take 100 ∧
    [60, 62, 58, 34, 47, 92, 124, 63, 42, 32]
      = ['<'.toNat, '>'.toNat, ':'.toNat, '"'.toNat, '/'.toNat, '\\'.toNat, '|'.toNat,
         '?'.toNat, '*'.toNat, ' '.toNat] ∧
    sanitizeFilename [97, 60, 62, 58, 34, 47, 92, 124, 63, 42, 32, 98]
      = [97, 95, 95, 95, 95, 95, 95, 95, 95, 95, 95, 98] := by
  refine ⟨sanitizeFilename_length s, ?_, ?_, by decide, by decide⟩
  · intro b hb
    have h := sanitizeFilename_bytes s b hb
    simp only [invalidChars, List.mem_cons, List.mem_singleton, List.not_mem_nil, or_false,
      not_or] at h
    obtain ⟨⟨h1, h2, h3, h4, h5, h6, h7, h8, h9⟩, h10⟩ := h
    exact ⟨h1, h2, h3, h4, h5, h6, h7, h8, h9, h10⟩
  · rw [sanitizeFilename_eq_take]
    have hf : underscored
        = (fun b => if b ∈ [60, 62, 58, 34, 47, 92, 124, 63, 42, 32] then 95 else b) := by
      funext b
      unfold underscored invalidChars
      by_cases h : b ∈ [60, 62, 58, 34, 47, 92, 124, 63, 42] ∨ b = 32
      · rw [if_pos h, if_pos]
        simp only [List.mem_cons, List.mem_singleton, List.not_mem_nil, or_false] at h ⊢
        tauto
      · rw [if_neg h, if_neg]
        simp only [List.mem_cons, List.mem_singleton, List.not_mem_nil, or_false] at h ⊢
        tauto
    rw [hf]

/-- The sanitizer leaves every other byte alone, a NUL byte among them: what it
returns for `bad`, NUL, `name` is that same name, which no file system takes. -/
theorem sanitizeFilename_keeps_nul :
    sanitizeFilename (bytes "bad" ++ [0] ++ bytes "name") = bytes "bad" ++ [0] ++ bytes "name" := by
  decide

/-! ## Report, episode loop and fetch escalation: the claims -/

/-- C8: after the header, the report of `writeDownloadsToFile` is one block per
episode whose link maps to at least one download, in the order of the episode
list; a block is the `EPISODIO: <name>` line, a rule, then for each download in
order a `Proveedor: <provider>` line, an `Enlace: <url>` line and an empty line,
and an empty line at its end; an episode whose link is absent from the map or
maps to the empty list prints nothing. -/
theorem reportText_blocks (animeName now : Str) (episodes : List Episode)
    (allDownloads : List (Str × List Download)) :
    reportText animeName now episodes allDownloads
      = writeHeader animeName now
        ++ unlines ((shownEpisodes episodes allDownloads).flatMap
            (fun p => blockLines p.1 p.2)) ∧
    (∀ (file : Str) (e : Episode),
      (mapGet allDownloads e.Link = none ∨ mapGet allDownloads e.Link = some []) →
      writeEpisode allDownloads file e = file) :=
  ⟨reportText_eq animeName now episodes allDownloads,
   fun file e h => writeEpisode_skip allDownloads file e h⟩

/-- C9: whatever the per-episode fetch returns, the episode loop of
`processAnimes` ends with a map that has an entry for a link exactly when the
link is one of the episodes and its fetch succeeded (the entry is the fetched
list, possibly empty); the run returns no error unless the report file cannot be
created, and the report then has one block per episode whose fetch gave at least
one link. -/
theorem crawl_tolerates_failures (fetch : Str → Except Str (List Download))
    (episodes : List Episode) :
    (∀ link : Str, mapGet (crawl fetch episodes) link
      = if link ∈ episodes.map Episode.Link then (fetch link).toOption else none) ∧
    (∀ animeName now : Str, ∃ written,
      processEpisodes fetch none animeName now episodes = .ok written ∧
      written.report = writeHeader animeName now
          ++ unlines ((fetchedEpisodes fetch episodes).flatMap
              (fun p => blockLines p.1 p.2))) := by
  refine ⟨mapGet_crawl fetch episodes, fun animeName now => ⟨_, rfl, ?_⟩⟩
  simp only [reportText_eq, shownEpisodes_crawl]

/-- C10, counterexample: the rendered fetch of `getLinksEpisodes` succeeds with a
page that has no episode item, and the plain fetch is made all the same; the
result is the plain fetch's, not the (empty) list extracted from the rendered
page. -/
theorem getLinksEpisodes_plain_after_render :
    (getLinksEpisodes (.ok (bytes "<html></html>")) (fun _ => .ok [])
      (.ok [{ Name := bytes "Episodio 1", Link := bytes "/ver/a-1" }])).plainFetches = 1 ∧
    (getLinksEpisodes (.ok (bytes "<html></html>")) (fun _ => .ok [])
      (.ok [{ Name := bytes "Episodio 1", Link := bytes "/ver/a-1" }])).result
      = .ok [{ Name := bytes "Episodio 1", Link := bytes "/ver/a-1" }] :=
  ⟨rfl, rfl⟩

/-- C10, amended: both operations make the plain fetch at most once, and when
they make it they return exactly its result.  `getDownloadLinksEpisode` makes it
exactly when the rendered fetch failed; `getLinksEpisodes` makes it when the
rendered fetch failed and also when the rendered page was parsed and gave no
episode.  When the rendered page is parsed (and, for `getLinksEpisodes`, gives at
least one episode) the operation returns the records extracted from it and makes
no plain fetch; when the rendered page cannot be parsed it returns that error
and makes no plain fetch. -/
theorem render_plain_escalation (render : Except Str Str)
    (parseRows : Str → Except Str (List DownloadRow)) (plainD : Except Str (List Download))
    (parseItems : Str → Except Str (List EpisodeItem)) (plainE : Except Str (List Episode)) :
    ((getDownloadLinksEpisode render parseRows plainD).plainFetches ≤ 1 ∧
     ((getDownloadLinksEpisode render parseRows plainD).plainFetches = 1
        ↔ ∃ err, render = .error err) ∧
     ((getDownloadLinksEpisode render parseRows plainD).plainFetches = 1 →
        (getDownloadLinksEpisode render parseRows plainD).result = plainD) ∧
     (∀ html rows, render = .ok html → parseRows html = .ok rows →
        getDownloadLinksEpisode render parseRows plainD
          = ⟨.ok (extractDownloads rows), 0⟩) ∧
     (∀ html err, render = .ok html → parseRows html = .error err →
        getDownloadLinksEpisode render parseRows plainD
          = ⟨.error (bytes "error parseando HTML: " ++ err), 0⟩)) ∧
    ((getLinksEpisodes render parseItems plainE).plainFetches ≤ 1 ∧
     ((getLinksEpisodes render parseItems plainE).plainFetches = 1
        ↔ (∃ err, render = .error err) ∨
          ∃ html items, render = .ok html ∧ parseItems html = .ok items ∧
            extractEpisodes items = []) ∧
     ((getLinksEpisodes render parseItems plainE).plainFetches = 1 →
        (getLinksEpisodes render parseItems plainE).result = plainE) ∧
     (∀ html items, render = .ok html → parseItems html = .ok items →
        extractEpisodes items ≠ [] →
        getLinksEpisodes render parseItems plainE = ⟨.ok (extractEpisodes items), 0⟩) ∧
     (∀ html err, render = .ok html → parseItems html = .error err →
        getLinksEpisodes render parseItems plainE
          = ⟨.error (bytes "error parseando HTML: " ++ err), 0⟩)) := by
  constructor
  · cases render with
    | error e => simp [getDownloadLinksEpisode]
    | ok html =>
      cases hp : parseRows html with
      | error e =>
        simp only [getDownloadLinksEpisode, hp]
        refine ⟨by simp, by simp, by simp, ?_, ?_⟩ <;> intros <;> simp_all
      | ok rows =>
        simp only [getDownloadLinksEpisode, hp]
        refine ⟨by simp, by simp, by simp, ?_, ?_⟩ <;> intros <;> simp_all
  · cases render with
    | error e => simp [getLinksEpisodes]
    | ok html =>
      cases hp : parseItems html with
      | error e =>
        simp only [getLinksEpisodes, hp]
        refine ⟨by simp, ?_, by simp, ?_, ?_⟩
        · simp only [Nat.zero_ne_one, false_iff, not_or, not_exists]
          refine ⟨fun _ h => by simp at h, ?_⟩
          intro h items ⟨h1, h2, _⟩
          simp only [Except.ok.injEq] at h1
          subst h1
          simp [hp] at h2
        · intros; simp_all
        · intros; simp_all
      | ok items =>
        by_cases he : extractEpisodes items = []
        · simp only [getLinksEpisodes, hp, he, List.length_nil, if_true]
          refine ⟨by simp, ?_, by simp, ?_, ?_⟩
          · simp only [true_iff]
            exact Or.inr ⟨html, items, rfl, hp, he⟩
          · intros; simp_all
          · intros; simp_all
        · have hlen : (extractEpisodes items).length ≠ 0 := by
            simpa [List.length_eq_zero] using he
          simp only [getLinksEpisodes, hp, hlen, if_false]
          refine ⟨by simp, ?_, by simp, ?_, ?_⟩
          · simp only [Nat.zero_ne_one, false_iff, not_or, not_exists]
            refine ⟨fun _ h => by simp at h, ?_⟩
            intro h items2 ⟨h1, h2, h3⟩
            simp only [Except.ok.injEq] at h1
            subst h1
            rw [hp] at h2
            simp only [Except.ok.injEq] at h2
            subst h2
            exact he h3
          · intros; simp_all
          · intros; simp_all

/-! ## Parser and converter: the claims -/

/-- C2: when `CreateMetalinkFromText` succeeds, the files of its generator are,
for n = 1, ..., 12 in this order and only for the n to which
`ParseEpisodeDocument` maps a URL, the entry named
`<baseName>_Episodio_<n in two digits>.mkv` with that URL and the size
367001600, and nothing else; the two-digit renderings are `01`, ..., `12`.  A
report with `EPISODIO: Episodio 3` and, later, `Enlace: https://mega.nz/#!AAA!BBB`
gives the single entry `<baseName>_Episodio_03.mkv` with that URL. -/
theorem CreateMetalinkFromText_files (text title baseName : Str) (mg : MetalinkGenerator)
    (h : CreateMetalinkFromText text title baseName = .ok mg) :
    mg.Files = (List.range' 1 12).filterMap (fun n =>
      (mapGet (ParseEpisodeDocument text) n).map (fun url =>
        ({ Name := baseName ++ bytes "_Episodio_" ++ decimal02 n ++ bytes ".mkv",
           Description := title ++ bytes " - Episodio " ++ decimal n,
           URL := url, Size := 367001600, Extension := bytes "mkv" } : MetalinkFile))) ∧
    (List.range' 1 12).map decimal02
      = [bytes "01", bytes "02", bytes "03", bytes "04", bytes "05", bytes "06",
         bytes "07", bytes "08", bytes "09", bytes "10", bytes "11", bytes "12"] ∧
    CreateMetalinkFromText
        (bytes "EPISODIO: Episodio 3\n----------------------------------------\nProveedor: MEGA\nEnlace: https://mega.nz/#!AAA!BBB\n\n\n")
        title baseName
      = .ok { Title := title, Description := bytes "Serie completa de anime",
              Category := bytes "Anime",
              Files := [{ Name := baseName ++ bytes "_Episodio_03.mkv",
                          Description := title ++ bytes " - Episodio 3",
                          URL := bytes "https://mega.nz/#!AAA!BBB",
                          Size := 367001600, Extension := bytes "mkv" }] } := by
  refine ⟨?_, by decide, ?_⟩
  · by_cases hp : ParseEpisodeDocument text = []
    · rw [CreateMetalinkFromText_error _ _ _ hp] at h
      cases h
    · rw [CreateMetalinkFromText_ok _ _ _ hp] at h
      cases h
      rfl
  · have hp : ParseEpisodeDocument
        (bytes "EPISODIO: Episodio 3\n----------------------------------------\nProveedor: MEGA\nEnlace: https://mega.nz/#!AAA!BBB\n\n\n")
        = [(3, bytes "https://mega.nz/#!AAA!BBB")] := by decide
    rw [CreateMetalinkFromText_ok _ _ _ (by rw [hp]; simp), hp]
    have h3 : decimal02 3 = bytes "03" := by decide
    have h3' : decimal 3 = bytes "3" := by decide
    have e1 : bytes "_Episodio_" ++ bytes "03" ++ bytes ".mkv" = bytes "_Episodio_03.mkv" := by
      decide
    have e2 : bytes " - Episodio " ++ bytes "3" = bytes " - Episodio 3" := by decide
    simp [List.range', mapGet, List.lookup, megaEntry, h3, h3', List.append_assoc]
    rw [← e1, ← e2]
    simp [List.append_assoc]

/-- C2, witness: the report with `EPISODIO: Episodio 3` and, later,
`Enlace: https://mega.nz/#!AAA!BBB` gives the single entry
`Naruto_Episodio_03.mkv` with that URL. -/
theorem CreateMetalinkFromText_files_witness :
    CreateMetalinkFromText
        (bytes "EPISODIO: Episodio 3\n----------------------------------------\nProveedor: MEGA\nEnlace: https://mega.nz/#!AAA!BBB\n\n\n")
        (bytes "Naruto") (bytes "Naruto")
      = .ok { Title := bytes "Naruto", Description := bytes "Serie completa de anime",
              Category := bytes "Anime",
              Files := [{ Name := bytes "Naruto_Episodio_03.mkv",
                          Description := bytes "Naruto - Episodio 3",
                          URL := bytes "https://mega.nz/#!AAA!BBB",
                          Size := 367001600, Extension := bytes "mkv" }] } ∧
    [({ Name := bytes "Naruto_Episodio_03.mkv",
        Description := bytes "Naruto - Episodio 3",
        URL := bytes "https://mega.nz/#!AAA!BBB",
        Size := 367001600, Extension := bytes "mkv" } : MetalinkFile)]
      = (List.range' 1 12).filterMap (fun n =>
          (mapGet (ParseEpisodeDocument
            (bytes "EPISODIO: Episodio 3\n----------------------------------------\nProveedor: MEGA\nEnlace: https://mega.nz/#!AAA!BBB\n\n\n")) n).map
            (fun url =>
              ({ Name := bytes "Naruto" ++ bytes "_Episodio_" ++ decimal02 n ++ bytes ".mkv",
                 Description := bytes "Naruto" ++ bytes " - Episodio " ++ decimal n,
                 URL := url, Size := 367001600, Extension := bytes "mkv" } : MetalinkFile))) :=
  have h : CreateMetalinkFromText
        (bytes "EPISODIO: Episodio 3\n----------------------------------------\nProveedor: MEGA\nEnlace: https://mega.nz/#!AAA!BBB\n\n\n")
        (bytes "Naruto") (bytes "Naruto")
      = .ok { Title := bytes "Naruto", Description := bytes "Serie completa de anime",
              Category := bytes "Anime",
              Files := [{ Name := bytes "Naruto_Episodio_03.mkv",
                          Description := bytes "Naruto - Episodio 3",
                          URL := bytes "https://mega.nz/#!AAA!BBB",
                          Size := 367001600, Extension := bytes "mkv" }] } := by rfl
  ⟨h, (CreateMetalinkFromText_files _ _ _ _ h).1⟩

/-- C3, counterexample: in the text ` EPISODIO: Episodio 1`, ` Enlace:
https://mega.nz/a` (each line indented by one space) no line begins with
`EPISODIO:`, and yet the conversion succeeds with one file: the parser trims
every line before it looks for the label. -/
theorem CreateMetalinkFromText_indented_label :
    (∀ l ∈ SplitLines (bytes " EPISODIO: Episodio 1\n Enlace: https://mega.nz/a\n"),
      HasPrefix l (bytes "EPISODIO:") = false) ∧
    CreateMetalinkFromText (bytes " EPISODIO: Episodio 1\n Enlace: https://mega.nz/a\n")
        (bytes "Naruto") (bytes "Naruto")
      = .ok { Title := bytes "Naruto", Description := bytes "Serie completa de anime",
              Category := bytes "Anime",
              Files := [{ Name := bytes "Naruto_Episodio_01.mkv",
                          Description := bytes "Naruto - Episodio 1",
                          URL := bytes "https://mega.nz/a",
                          Size := 367001600, Extension := bytes "mkv" }] } :=
  ⟨by decide, by rfl⟩

/-- C3, amended: `CreateMetalinkFromText` returns an error exactly when
`ParseEpisodeDocument` captured no episode; in particular it returns the error
for every text in which no line, once trimmed of its leading and trailing white
space, begins with `EPISODIO:`. -/
theorem CreateMetalinkFromText_error_iff (text title baseName : Str) :
    ((∃ err, CreateMetalinkFromText text title baseName = .error err)
      ↔ ParseEpisodeDocument text = []) ∧
    ((∀ l ∈ SplitLines text, HasPrefix (TrimSpace l) (bytes "EPISODIO:") = false) →
      CreateMetalinkFromText text title baseName
        = .error (bytes "no se encontraron episodios con enlaces MEGA")) := by
  refine ⟨⟨?_, ?_⟩, ?_⟩
  · rintro ⟨err, herr⟩
    by_contra hp
    rw [CreateMetalinkFromText_ok _ _ _ hp] at herr
    cases herr
  · intro hp
    exact ⟨_, CreateMetalinkFromText_error _ _ _ hp⟩
  · intro h
    apply CreateMetalinkFromText_error
    unfold ParseEpisodeDocument
    rw [foldl_parseLine_no_label _ h]

/-- C3, witness: a text with a header line and a `mega.nz` link but no line that,
trimmed, begins with `EPISODIO:` is refused. -/
theorem CreateMetalinkFromText_error_iff_witness :
    (∀ l ∈ SplitLines (bytes "ENLACES DE DESCARGA - Naruto\nEnlace: https://mega.nz/#!AAA!BBB\n"),
      HasPrefix (TrimSpace l) (bytes "EPISODIO:") = false) ∧
    CreateMetalinkFromText
        (bytes "ENLACES DE DESCARGA - Naruto\nEnlace: https://mega.nz/#!AAA!BBB\n")
        (bytes "Naruto") (bytes "Naruto")
      = .error (bytes "no se encontraron episodios con enlaces MEGA") :=
  ⟨by decide, (CreateMetalinkFromText_error_iff _ _ _).2 (by decide)⟩

/-- C4, counterexample: in the text `EPISODIO: Episodio 1`,
`Enlace: https://mega.nz/a`, `  Enlace: https://mega.nz/b` the last line that
starts with `Enlace:` and contains `mega.nz` is the second, whose trimmed
remainder is `https://mega.nz/a`; the parser maps 1 to `https://mega.nz/b`, the
link of the indented third line, because it trims a line before it tests it. -/
theorem ParseEpisodeDocument_indented_link :
    ((SplitLines (bytes "EPISODIO: Episodio 1\nEnlace: https://mega.nz/a\n  Enlace: https://mega.nz/b\n")).filter
        (fun l => HasPrefix l (bytes "Enlace:") && Contains l (bytes "mega.nz"))).getLast?
      = some (bytes "Enlace: https://mega.nz/a") ∧
    TrimSpace ((bytes "Enlace: https://mega.nz/a").drop 7) = bytes "https://mega.nz/a" ∧
    ParseEpisodeDocument (bytes "EPISODIO: Episodio 1\nEnlace: https://mega.nz/a\n  Enlace: https://mega.nz/b\n")
      = [(1, bytes "https://mega.nz/b")] := by
  decide

/-- C4, amended: the URL that `ParseEpisodeDocument` maps to n is taken from the
last of the lines of the text that, once trimmed of their leading and trailing
white space, start with `Enlace:`, contain `mega.nz` and are scanned while the
current episode number is n (and positive): it is what is left of that trimmed
line after the `Enlace:` prefix, trimmed again; earlier such lines for n are
overwritten, and n is mapped to nothing when there is no such line. -/
theorem ParseEpisodeDocument_last_wins (text : Str) (n : Nat) :
    mapGet (ParseEpisodeDocument text) n
      = (((scanLines 0 (SplitLines text)).filter
            (fun p => (Contains p.2 (bytes "mega.nz") && HasPrefix p.2 (bytes "Enlace:")
                        && decide (p.1 > 0)) && p.1 == n)).getLast?).map
          (fun p => TrimSpace (p.2.drop 7)) := by
  rw [mapGet_ParseEpisodeDocument]
  have hf : (fun p : Nat × Str => isMegaLine p.2 p.1 && p.1 == n)
      = (fun p => (Contains p.2 (bytes "mega.nz") && HasPrefix p.2 (bytes "Enlace:")
                        && decide (p.1 > 0)) && p.1 == n) := rfl
  rw [hf]
  cases hlast : ((scanLines 0 (SplitLines text)).filter
            (fun p => (Contains p.2 (bytes "mega.nz") && HasPrefix p.2 (bytes "Enlace:")
                        && decide (p.1 > 0)) && p.1 == n)).getLast? with
  | none => rfl
  | some p =>
    have hmem := List.mem_of_getLast?_eq_some hlast
    rw [List.mem_filter] at hmem
    have hpre : HasPrefix p.2 (bytes "Enlace:") = true := by
      have := hmem.2
      simp only [Bool.and_eq_true] at this
      exact this.1.1.2
    simp only [Option.map_some', TrimPrefix, hpre, if_true]
    rfl

/-! ## Round trip of writer and converter: the claim -/

/-- C1, counterexample: (a) the report of one episode `Episodio 1` with a single
Zippyshare link parses to the empty map and the conversion fails, so the written
pair is not recovered and the result is an error; (b) of two `mega.nz` links
written under `Episodio 1` only the second is recovered. -/
theorem round_trip_loses_links :
    (ParseEpisodeDocument (reportText (bytes "Naruto") (bytes "2024-01-02 03:04:05")
        [{ Name := bytes "Episodio 1", Link := bytes "/ver/naruto-1" }]
        [(bytes "/ver/naruto-1",
          [{ ProviderName := bytes "Zippyshare",
             DownloadURL := bytes "https://www.zippyshare.com/v/abc/file.html" }])]) = [] ∧
     CreateMetalinkFromText (reportText (bytes "Naruto") (bytes "2024-01-02 03:04:05")
        [{ Name := bytes "Episodio 1", Link := bytes "/ver/naruto-1" }]
        [(bytes "/ver/naruto-1",
          [{ ProviderName := bytes "Zippyshare",
             DownloadURL := bytes "https://www.zippyshare.com/v/abc/file.html" }])])
        (bytes "Naruto") (bytes "Naruto")
      = .error (bytes "no se encontraron episodios con enlaces MEGA")) ∧
    ParseEpisodeDocument (reportText (bytes "Naruto") (bytes "2024-01-02 03:04:05")
        [{ Name := bytes "Episodio 1", Link := bytes "/ver/naruto-1" }]
        [(bytes "/ver/naruto-1",
          [{ ProviderName := bytes "MEGA", DownloadURL := bytes "https://mega.nz/#!AAA!BBB" },
           { ProviderName := bytes "MEGA", DownloadURL := bytes "https://mega.nz/#!CCC!DDD" }])])
      = [(1, bytes "https://mega.nz/#!CCC!DDD")] := by
  refine ⟨⟨by decide, by rfl⟩, by decide⟩

/-- C1, amended: take a report written from a title and a time stamp without
line feed, where every episode shown is named `Episodio <digits>` with a positive
number that fits an `int`, and every download shown has a provider name and a
URL without line feed, the URLs that contain `mega.nz` having no white space at
either end.  Then `ParseEpisodeDocument` maps each number n to the last URL
containing `mega.nz` written under an episode of number n, and to nothing when
there is none (URLs without `mega.nz` and earlier URLs of the same number are not
recovered); `CreateMetalinkFromText` lists the entries of n = 1, ..., 12 in
ascending order, dropping the other numbers without an error, and fails exactly
when no URL containing `mega.nz` was written. -/
theorem report_round_trip (animeName now title baseName : Str) (episodes : List Episode)
    (allDownloads : List (Str × List Download))
    (hname : 10 ∉ animeName) (hnow : 10 ∉ now)
    (hshown : ∀ p ∈ shownEpisodes episodes allDownloads,
      wellNamed p.1 = true ∧ ∀ d ∈ p.2, cleanDownload d = true) :
    (∀ n, mapGet (ParseEpisodeDocument (reportText animeName now episodes allDownloads)) n
      = (writtenLinks episodes allDownloads n).getLast?) ∧
    ((∃ n, writtenLinks episodes allDownloads n ≠ []) →
      CreateMetalinkFromText (reportText animeName now episodes allDownloads) title baseName
        = .ok { Title := title, Description := bytes "Serie completa de anime",
                Category := bytes "Anime",
                Files := (List.range' 1 12).filterMap (fun n =>
                  ((writtenLinks episodes allDownloads n).getLast?).map (fun url =>
                    ({ Name := baseName ++ bytes "_Episodio_" ++ decimal02 n ++ bytes ".mkv",
                       Description := title ++ bytes " - Episodio " ++ decimal n,
                       URL := url, Size := 367001600,
                       Extension := bytes "mkv" } : MetalinkFile))) }) ∧
    ((∀ n, writtenLinks episodes allDownloads n = []) →
      CreateMetalinkFromText (reportText animeName now episodes allDownloads) title baseName
        = .error (bytes "no se encontraron episodios con enlaces MEGA")) := by
  have hget := mapGet_parse_report animeName now episodes allDownloads hname hnow hshown
  refine ⟨hget, ?_, ?_⟩
  · rintro ⟨n, hn⟩
    have hne : ParseEpisodeDocument (reportText animeName now episodes allDownloads) ≠ [] := by
      intro h0
      have h1 := hget n
      rw [h0] at h1
      have h2 : (writtenLinks episodes allDownloads n).getLast? = none := by
        rw [← h1]; rfl
      exact hn (List.getLast?_eq_none_iff.mp h2)
    rw [CreateMetalinkFromText_ok _ _ _ hne]
    simp only [hget]
    rfl
  · intro hall
    apply CreateMetalinkFromText_error
    apply eq_nil_of_mapGet_none
    intro k
    rw [hget k, hall k]
    rfl

/-- C1, witness: three episodes; `Episodio 1` has two `mega.nz` links around a
Zippyshare link, `Episodio 2` only a Zippyshare link, `Episodio 13` one `mega.nz`
link.  The metalink has the single entry of episode 1 with its last `mega.nz`
link. -/
theorem report_round_trip_witness :
    10 ∉ bytes "Naruto" ∧ 10 ∉ bytes "2024-01-02 03:04:05" ∧
    (∀ p ∈ shownEpisodes
        [{ Name := bytes "Episodio 1", Link := bytes "/ver/naruto-1" },
         { Name := bytes "Episodio 2", Link := bytes "/ver/naruto-2" },
         { Name := bytes "Episodio 13", Link := bytes "/ver/naruto-13" }]
        [(bytes "/ver/naruto-1",
          [{ ProviderName := bytes "MEGA", DownloadURL := bytes "https://mega.nz/#!AAA!BBB" },
           { ProviderName := bytes "Zippyshare", DownloadURL := bytes "https://www.zippyshare.com/v/abc/file.html" },
           { ProviderName := bytes "MEGA", DownloadURL := bytes "https://mega.nz/#!CCC!DDD" }]),
         (bytes "/ver/naruto-2",
          [{ ProviderName := bytes "Zippyshare", DownloadURL := bytes "https://www.zippyshare.com/v/def/file.html" }]),
         (bytes "/ver/naruto-13",
          [{ ProviderName := bytes "MEGA", DownloadURL := bytes "https://mega.nz/#!EEE!FFF" }])],
      wellNamed p.1 = true ∧ ∀ d ∈ p.2, cleanDownload d = true) ∧
    CreateMetalinkFromText (reportText (bytes "Naruto") (bytes "2024-01-02 03:04:05")
        [{ Name := bytes "Episodio 1", Link := bytes "/ver/naruto-1" },
         { Name := bytes "Episodio 2", Link := bytes "/ver/naruto-2" },
         { Name := bytes "Episodio 13", Link := bytes "/ver/naruto-13" }]
        [(bytes "/ver/naruto-1",
          [{ ProviderName := bytes "MEGA", DownloadURL := bytes "https://mega.nz/#!AAA!BBB" },
           { ProviderName := bytes "Zippyshare", DownloadURL := bytes "https://www.zippyshare.com/v/abc/file.html" },
           { ProviderName := bytes "MEGA", DownloadURL := bytes "https://mega.nz/#!CCC!DDD" }]),
         (bytes "/ver/naruto-2",
          [{ ProviderName := bytes "Zippyshare", DownloadURL := bytes "https://www.zippyshare.com/v/def/file.html" }]),
         (bytes "/ver/naruto-13",
          [{ ProviderName := bytes "MEGA", DownloadURL := bytes "https://mega.nz/#!EEE!FFF" }])])
        (bytes "Naruto") (bytes "Naruto_")
      = .ok { Title := bytes "Naruto", Description := bytes "Serie completa de anime",
              Category := bytes "Anime",
              Files := [{ Name := bytes "Naruto__Episodio_01.mkv",
                          Description := bytes "Naruto - Episodio 1",
                          URL := bytes "https://mega.nz/#!CCC!DDD",
                          Size := 367001600, Extension := bytes "mkv" }] } :=
  ⟨by decide, by decide, by decide,
   ((report_round_trip _ _ (bytes "Naruto") (bytes "Naruto_") _ _ (by decide) (by decide)
      (by decide)).2.1 ⟨1, by decide⟩).trans (by rfl)⟩

/-! ## Selection, unnumbered labels and the cap at 12: the claims -/

/-- C11: in `processAnimes`, when the trimmed input parses (`strconv.Atoi`) as an
integer k with 1 ≤ k ≤ n, n the length of the list, the selection proceeds with
the element of index k - 1, which exists; in every other case (no number, or a
number outside 1..n) the selection returns an error and `processAnimes` returns
it without having requested any page.  The list is never indexed out of bounds:
neither the selection nor a run of `processAnimes` ends in that panic.  What
parses is an optional `+` or `-` followed by one or more ASCII digits whose value
fits an `int`. -/
theorem processAnimes_selection (animesList : List Anime) (input : Str) :
    (∀ k : Int, AtoiInt (TrimSpace input) = some k → 1 ≤ k → k ≤ (animesList.length : Int) →
      ∃ a, animesList[(k - 1).toNat]? = some a ∧ selectAnime animesList input = .chosen a) ∧
    ((¬ ∃ k : Int, AtoiInt (TrimSpace input) = some k ∧ 1 ≤ k
        ∧ k ≤ (animesList.length : Int)) →
      ∃ err, selectAnime animesList input = .refused err ∧
        ∀ (episodesOf : Str → Str → Except Str (List Episode))
          (fetch : Str → Except Str (List Download)) (createErr : Option Str) (now : Str),
          processAnimes animesList (.ok input) episodesOf fetch createErr now
            = { outcome := some (.error err), requested := [] }) ∧
    selectAnime animesList input ≠ .outOfRange ∧
    (∀ (readLine : Except Str Str) (episodesOf : Str → Str → Except Str (List Episode))
        (fetch : Str → Except Str (List Download)) (createErr : Option Str) (now : Str),
      (processAnimes animesList readLine episodesOf fetch createErr now).outcome ≠ none) ∧
    (∀ k : Int, AtoiInt (TrimSpace input) = some k ↔
      ∃ ds : Str, ds ≠ [] ∧ (∀ d ∈ ds, isDigit d = true) ∧
        (((TrimSpace input = ds ∨ TrimSpace input = 43 :: ds) ∧ digitsVal ds ≤ intMax
            ∧ k = (digitsVal ds : Int)) ∨
         (TrimSpace input = 45 :: ds ∧ digitsVal ds ≤ intMax + 1
            ∧ k = -(digitsVal ds : Int)))) := by
  refine ⟨fun k hk h1 h2 => selectAnime_of_range animesList input k hk h1 h2, ?_,
    selectAnime_ne_outOfRange animesList input,
    fun readLine episodesOf fetch createErr now =>
      processAnimes_no_panic animesList readLine episodesOf fetch createErr now,
    fun k => AtoiInt_eq_some_iff (TrimSpace input) k⟩
  intro h
  obtain ⟨err, herr⟩ := selectAnime_refused animesList input h
  exact ⟨err, herr, fun episodesOf fetch createErr now =>
    processAnimes_of_refused animesList input err herr episodesOf fetch createErr now⟩

/-- C12: an `EPISODIO:` line in which no number can be read (the text after the
label has no `Episodio ` followed by a digit, for instance no `Episodio ` at
all, or its digits are too large for an `int`) leaves the current episode number
as it was and stores nothing.  Hence, as long as no `EPISODIO:` line with a
readable number comes, every following line that starts with `Enlace:` and
contains `mega.nz` is stored under that previous number, when it is positive,
each one overwriting the URL stored before; and while the current number is 0 nothing is stored: lines
scanned before any `EPISODIO:` line leave the map empty.  Three reports show it:
a link after `EPISODIO: Especial`, and one after a number of twenty digits,
replace the link of episode 1; a link before the first label is lost. -/
theorem ParseEpisodeDocument_unnumbered_label :
    (∀ (cur : Nat) (l : Str), isUnnumberedLabel l = true →
      nextEpisode cur (TrimSpace l) = cur ∧ ∀ st : ParseState, parseLine st l = st) ∧
    (∀ (l after : Str), CutPrefix (TrimSpace l) (bytes "EPISODIO:") = some after →
      Contains (TrimSpace after) (bytes "Episodio ") = false → isUnnumberedLabel l = true) ∧
    (∀ (m : List (Nat × Str)) (cur : Nat) (L : Str) (rest : List Str),
      isUnnumberedLabel L = true →
      (∀ l ∈ rest, HasPrefix (TrimSpace l) (bytes "EPISODIO:") = false
        ∨ isUnnumberedLabel l = true) →
      ((L :: rest).foldl parseLine { episodes := m, currentEpisode := cur }).currentEpisode
        = cur ∧
      ∀ k, mapGet ((L :: rest).foldl parseLine
            { episodes := m, currentEpisode := cur }).episodes k
        = if k = cur ∧ 0 < cur then
            (((rest.filter isLinkLine).getLast?).map linkURL).or (mapGet m k)
          else mapGet m k) ∧
    (∀ (st : ParseState) (l : Str), nextEpisode st.currentEpisode (TrimSpace l) = 0 →
      (parseLine st l).episodes = st.episodes) ∧
    (∀ lines : List Str,
      (∀ l ∈ lines, HasPrefix (TrimSpace l) (bytes "EPISODIO:") = false) →
      lines.foldl parseLine { episodes := [], currentEpisode := 0 }
        = { episodes := [], currentEpisode := 0 }) ∧
    ParseEpisodeDocument (bytes "EPISODIO: Episodio 1\nEnlace: https://mega.nz/a\nEPISODIO: Especial\nEnlace: https://mega.nz/b\n")
      = [(1, bytes "https://mega.nz/b")] ∧
    ParseEpisodeDocument (bytes "EPISODIO: Episodio 1\nEnlace: https://mega.nz/a\nEPISODIO: Episodio 99999999999999999999\nEnlace: https://mega.nz/b\n")
      = [(1, bytes "https://mega.nz/b")] ∧
    ParseEpisodeDocument (bytes "Enlace: https://mega.nz/a\nEPISODIO: Episodio 1\n") = [] := by
  refine ⟨fun cur l h => ⟨nextEpisode_of_isUnnumberedLabel cur h,
      fun st => parseLine_of_isUnnumberedLabel st h⟩, ?_, ?_,
    parseLine_episodes_of_zero, foldl_parseLine_no_label, by decide, by decide, by decide⟩
  · intro l after hcut hcont
    unfold isUnnumberedLabel
    rw [hcut]
    dsimp only
    rw [findEpisodeDigits_none_of_not_Contains _ hcont]
  · intro m cur L rest hL hrest
    rw [List.foldl_cons, parseLine_of_isUnnumberedLabel _ hL]
    exact foldl_parseLine_keep rest hrest m cur

/-- C13: when `ParseEpisodeDocument` captured at least one episode and every
captured number is greater than 12, `CreateMetalinkFromText` returns no error and a
generator without any file. -/
theorem CreateMetalinkFromText_empty_document (text title baseName : Str)
    (hne : ParseEpisodeDocument text ≠ [])
    (hbig : ∀ p ∈ ParseEpisodeDocument text, 12 < p.1) :
    CreateMetalinkFromText text title baseName
      = .ok { Title := title, Description := bytes "Serie completa de anime",
              Category := bytes "Anime", Files := [] } :=
  CreateMetalinkFromText_no_files text title baseName hne hbig

/-- C13, witness: the report whose only episode is `EPISODIO: Episodio 13`, with a
`mega.nz` link, is converted without error into a generator with no file. -/
theorem CreateMetalinkFromText_empty_document_witness :
    ParseEpisodeDocument (bytes "EPISODIO: Episodio 13\nEnlace: https://mega.nz/#!AAA!BBB\n")
      = [(13, bytes "https://mega.nz/#!AAA!BBB")] ∧
    CreateMetalinkFromText (bytes "EPISODIO: Episodio 13\nEnlace: https://mega.nz/#!AAA!BBB\n")
        (bytes "Naruto") (bytes "Naruto")
      = .ok { Title := bytes "Naruto", Description := bytes "Serie completa de anime",
              Category := bytes "Anime", Files := [] } :=
  ⟨by decide, CreateMetalinkFromText_empty_document _ _ _ (by decide) (by decide)⟩

end AnimeFLV
